import Mathlib

/-!
Verification of the MEHR (maximal empty hyper-rectangle) discovery engine,
a shallow embedding of `HyperRectangle.py` and `bigholes/HoleFinder.py`.

Real values are modelled by `ℚ`; numpy arrays by Lean lists; numpy integer
index arrays by functions `Nat → Nat`.  Randomness (permutations, coin flips,
uniform draws) is passed in explicitly as streams/parameters.  Python
exceptions are modelled by `Except PyError`.
-/

namespace BigHoles

/-- Python runtime errors relevant to this code base (taxonomy, not types). -/
inductive PyError where
  /-- `ValueError`, e.g. numpy shape errors or empty reductions. -/
  | valueError
  /-- `AttributeError`, e.g. calling `.append` on a `dict`. -/
  | attributeError
  /-- `TypeError`, e.g. indexing a `list` with a non-integer. -/
  | typeError
  deriving DecidableEq, Repr

/-- `HyperRectangle` from `HyperRectangle.py`: a list `U` of upper bounds and a
list `L` of lower bounds, one entry per dimension. -/
structure HyperRectangle where
  U : List ℚ
  L : List ℚ
  deriving DecidableEq, Repr

namespace HyperRectangle

/-- `HyperRectangle.__init__(dimension)`: both bound vectors are zero vectors. -/
def ofDim (dimension : Nat) : HyperRectangle :=
  { U := List.replicate dimension 0, L := List.replicate dimension 0 }

/-- `volume`: `numpy.prod(self.U - self.L)`. -/
def volume (r : HyperRectangle) : ℚ :=
  (List.zipWith (fun u l => u - l) r.U r.L).prod

/-- `contains`: `numpy.all(self.L < point) and numpy.all(self.U > point)`. -/
def contains (r : HyperRectangle) (point : List ℚ) : Bool :=
  (List.zipWith (fun l x => decide (l < x)) r.L point).all id &&
  (List.zipWith (fun u x => decide (u > x)) r.U point).all id

/-- `intersect`: raises `ValueError` when the shapes differ; otherwise takes the
pointwise max of lower bounds and min of upper bounds, and returns `none`
(Python `None`) when any resulting width is negative. -/
def intersect (r other : HyperRectangle) : Except PyError (Option HyperRectangle) :=
  if r.L.length ≠ other.L.length then .error .valueError
  else
    let rL := List.zipWith max r.L other.L
    let rU := List.zipWith min r.U other.U
    if (List.zipWith (fun u l => u - l) rU rL).any (fun w => decide (w < 0)) then .ok none
    else .ok (some { U := rU, L := rL })

/-- `inWay`: the `contains` comparisons with the `d`-th entry of each
comparison vector overwritten by `True` (numpy `aboveL[d] = True`). -/
def inWay (r : HyperRectangle) (point : List ℚ) (d : Nat) : Bool :=
  ((List.zipWith (fun l x => decide (l < x)) r.L point).set d true).all id &&
  ((List.zipWith (fun u x => decide (u > x)) r.U point).set d true).all id

/-- `isEmpty`: no row of `data` is contained in the rectangle. -/
def isEmpty (r : HyperRectangle) (data : List (List ℚ)) : Bool :=
  data.all (fun p => !(r.contains p))

end HyperRectangle

/-! ### Elementwise characterizations of the numpy comparisons -/

/-- A list of booleans is `all id` iff every position holds `true`. -/
theorem all_id_iff (l : List Bool) :
    (l.all id = true) ↔ ∀ (i : Nat) (h : i < l.length), l[i] = true := by
  rw [List.all_eq_true]
  constructor
  · intro h i hi
    exact h _ (List.getElem_mem hi)
  · intro h x hx
    obtain ⟨i, hi, rfl⟩ := List.mem_iff_getElem.mp hx
    exact h i hi

/-- `zipWith` of a decidable comparison is `all id` iff the comparison holds at
every (common) index. -/
theorem all_zipWith_iff {R : ℚ → ℚ → Prop} [DecidableRel R] {a b : List ℚ}
    (h : a.length = b.length) :
    ((List.zipWith (fun x y => decide (R x y)) a b).all id = true) ↔
      ∀ i, i < a.length → R (a.getD i 0) (b.getD i 0) := by
  rw [all_id_iff]
  have hlen : (List.zipWith (fun x y => decide (R x y)) a b).length = a.length := by
    simp [List.length_zipWith, h]
  constructor
  · intro hall i hi
    have hib : i < b.length := by omega
    have hiz : i < (List.zipWith (fun x y => decide (R x y)) a b).length := by omega
    have := hall i hiz
    rw [List.getElem_zipWith] at this
    rw [List.getD_eq_getElem _ _ hi, List.getD_eq_getElem _ _ hib]
    exact of_decide_eq_true this
  · intro hall i hi
    have hia : i < a.length := by omega
    have hib : i < b.length := by omega
    rw [List.getElem_zipWith]
    have := hall i hia
    rw [List.getD_eq_getElem _ _ hia, List.getD_eq_getElem _ _ hib] at this
    exact decide_eq_true this

/-- `all id` after overwriting position `d` with `true` holds iff every other
position holds `true`. -/
theorem all_set_true_iff (l : List Bool) (d : Nat) :
    ((l.set d true).all id = true) ↔
      ∀ (i : Nat) (h : i < l.length), i ≠ d → l[i] = true := by
  rw [all_id_iff]
  have hlen : (l.set d true).length = l.length := by simp
  constructor
  · intro hall i hi hne
    have hi' : i < (l.set d true).length := by omega
    have := hall i hi'
    rw [List.getElem_set_ne (fun hdi => hne hdi.symm)] at this
    exact this
  · intro hall i hi
    have hil : i < l.length := by omega
    by_cases hid : i = d
    · subst hid
      simp [List.getElem_set]
    · rw [List.getElem_set_ne (fun hdi => hid hdi.symm)]
      exact hall i hil hid

/-- `contains` holds iff the point is strictly inside on every dimension. -/
theorem contains_iff (r : HyperRectangle) (p : List ℚ) (k : Nat)
    (hU : r.U.length = k) (hL : r.L.length = k) (hp : p.length = k) :
    r.contains p = true ↔
      ∀ i, i < k → r.L.getD i 0 < p.getD i 0 ∧ p.getD i 0 < r.U.getD i 0 := by
  unfold HyperRectangle.contains
  rw [Bool.and_eq_true, all_zipWith_iff (by rw [hL, hp]),
    all_zipWith_iff (R := fun u x => u > x) (by rw [hU, hp])]
  constructor
  · rintro ⟨h1, h2⟩ i hi
    exact ⟨h1 i (by omega), h2 i (by omega)⟩
  · intro h
    exact ⟨fun i hi => (h i (by omega)).1, fun i hi => (h i (by omega)).2⟩

/-- `inWay` holds iff the point is strictly inside on every dimension other
than `d`. -/
theorem inWay_iff (r : HyperRectangle) (p : List ℚ) (d k : Nat)
    (hU : r.U.length = k) (hL : r.L.length = k) (hp : p.length = k) :
    r.inWay p d = true ↔
      ∀ j, j < k → j ≠ d →
        r.L.getD j 0 < p.getD j 0 ∧ p.getD j 0 < r.U.getD j 0 := by
  unfold HyperRectangle.inWay
  rw [Bool.and_eq_true, all_set_true_iff, all_set_true_iff]
  have hzL : (List.zipWith (fun l x => decide (l < x)) r.L p).length = k := by
    simp [List.length_zipWith, hL, hp]
  have hzU : (List.zipWith (fun u x => decide (u > x)) r.U p).length = k := by
    simp [List.length_zipWith, hU, hp]
  constructor
  · rintro ⟨h1, h2⟩ j hj hjd
    have hjL : j < (List.zipWith (fun l x => decide (l < x)) r.L p).length := by omega
    have hjU : j < (List.zipWith (fun u x => decide (u > x)) r.U p).length := by omega
    have hjL' : j < r.L.length := by omega
    have hjU' : j < r.U.length := by omega
    have hjp : j < p.length := by omega
    have e1 := h1 j hjL hjd
    have e2 := h2 j hjU hjd
    rw [List.getElem_zipWith] at e1 e2
    constructor
    · have := of_decide_eq_true e1
      rwa [List.getD_eq_getElem _ _ hjL', List.getD_eq_getElem _ _ hjp]
    · have := of_decide_eq_true e2
      rwa [List.getD_eq_getElem _ _ hjU', List.getD_eq_getElem _ _ hjp]
  · intro h
    constructor
    · intro j hj hjd
      have hjk : j < k := by omega
      have hjL' : j < r.L.length := by omega
      have hjp : j < p.length := by omega
      rw [List.getElem_zipWith]
      apply decide_eq_true
      have := (h j hjk hjd).1
      rwa [List.getD_eq_getElem _ _ hjL', List.getD_eq_getElem _ _ hjp] at this
    · intro j hj hjd
      have hjk : j < k := by omega
      have hjU' : j < r.U.length := by omega
      have hjp : j < p.length := by omega
      rw [List.getElem_zipWith]
      apply decide_eq_true
      have := (h j hjk hjd).2
      rwa [List.getD_eq_getElem _ _ hjU', List.getD_eq_getElem _ _ hjp] at this

/-- `getD` of a `zipWith` at an in-range index. -/
theorem getD_zipWith {f : ℚ → ℚ → ℚ} {a b : List ℚ} {i : Nat}
    (ha : i < a.length) (hb : i < b.length) :
    (List.zipWith f a b).getD i 0 = f (a.getD i 0) (b.getD i 0) := by
  have hz : i < (List.zipWith f a b).length := by
    simp only [List.length_zipWith]
    omega
  rw [List.getD_eq_getElem _ _ hz, List.getElem_zipWith,
    List.getD_eq_getElem _ _ ha, List.getD_eq_getElem _ _ hb]

/-- `any` of a negativity test over elementwise differences. -/
theorem any_neg_iff {a b : List ℚ} (h : a.length = b.length) :
    ((List.zipWith (fun u l => u - l) a b).any (fun w => decide (w < 0)) = true) ↔
      ∃ i, i < a.length ∧ a.getD i 0 - b.getD i 0 < 0 := by
  rw [List.any_eq_true]
  constructor
  · rintro ⟨x, hx, hneg⟩
    obtain ⟨i, hi, rfl⟩ := List.mem_iff_getElem.mp hx
    have hia : i < a.length := by
      simp only [List.length_zipWith] at hi
      omega
    have hib : i < b.length := by omega
    refine ⟨i, hia, ?_⟩
    rw [List.getElem_zipWith] at hneg
    have := of_decide_eq_true hneg
    rwa [List.getD_eq_getElem _ _ hia, List.getD_eq_getElem _ _ hib]
  · rintro ⟨i, hia, hneg⟩
    have hib : i < b.length := by omega
    have hz : i < (List.zipWith (fun u l => u - l) a b).length := by
      simp only [List.length_zipWith]
      omega
    refine ⟨_, List.getElem_mem hz, ?_⟩
    rw [List.getElem_zipWith]
    apply decide_eq_true
    rwa [List.getD_eq_getElem _ _ hia, List.getD_eq_getElem _ _ hib] at hneg

/-- C9: `in_way(p, d)` is true iff `p` lies strictly inside the rectangle along
every dimension other than `d`; in particular a point lying exactly at `L[j]`
or `U[j]` for some `j ≠ d` is not in the way, regardless of `p`'s coordinate in
dimension `d`. -/
theorem claim_C9_inWay_strict_off_axis (r : HyperRectangle) (p : List ℚ) (d k : Nat)
    (hU : r.U.length = k) (hL : r.L.length = k) (hp : p.length = k) :
    (r.inWay p d = true ↔
      ∀ j, j < k → j ≠ d →
        r.L.getD j 0 < p.getD j 0 ∧ p.getD j 0 < r.U.getD j 0) ∧
    (∀ j, j < k → j ≠ d →
      (p.getD j 0 = r.L.getD j 0 ∨ p.getD j 0 = r.U.getD j 0) →
      r.inWay p d = false) := by
  have hiff := inWay_iff r p d k hU hL hp
  refine ⟨hiff, ?_⟩
  intro j hj hjd hface
  by_contra hcon
  have htrue : r.inWay p d = true := by
    cases hb : r.inWay p d
    · exact absurd hb hcon
    · rfl
  have := (hiff.mp htrue) j hj hjd
  rcases hface with hface | hface
  · rw [hface] at this
    exact lt_irrefl _ this.1
  · rw [hface] at this
    exact lt_irrefl _ this.2

/-- Witness for C9 at a concrete rectangle `[0,0] × [5,5]`, point `(7, 3)` and
axis `0`: the point is in the way (it is strictly inside along dimension `1`),
even though its coordinate `7` is outside along dimension `0`. -/
theorem claim_C9_witness :
    HyperRectangle.inWay { U := [5, 5], L := [0, 0] } [7, 3] 0 = true := by
  have h := (claim_C9_inWay_strict_off_axis { U := [5, 5], L := [0, 0] } [7, 3] 0 2
    rfl rfl rfl).1
  exact h.mpr (by decide)

/-- C8: `intersect` raises a dimension-mismatch `ValueError` for rectangles of
differing dimension; otherwise it takes the pointwise max of lower bounds and
min of upper bounds, returning `None` exactly when some resulting width is
negative (a zero-width result is returned as a degenerate rectangle). -/
theorem claim_C8_intersect (A B : HyperRectangle) (kA kB : Nat)
    (hAU : A.U.length = kA) (hAL : A.L.length = kA)
    (hBU : B.U.length = kB) (hBL : B.L.length = kB) :
    (kA ≠ kB → A.intersect B = .error .valueError) ∧
    (kA = kB →
      ((∃ i, i < kA ∧
          min (A.U.getD i 0) (B.U.getD i 0) - max (A.L.getD i 0) (B.L.getD i 0) < 0) →
        A.intersect B = .ok none) ∧
      ((∀ i, i < kA →
          0 ≤ min (A.U.getD i 0) (B.U.getD i 0) - max (A.L.getD i 0) (B.L.getD i 0)) →
        A.intersect B =
          .ok (some { U := List.zipWith min A.U B.U, L := List.zipWith max A.L B.L }))) := by
  constructor
  · intro hne
    unfold HyperRectangle.intersect
    rw [if_pos (by omega)]
  · intro hk
    subst hk
    have hULen : (List.zipWith min A.U B.U).length = kA := by
      simp only [List.length_zipWith]
      omega
    have hLLen : (List.zipWith max A.L B.L).length = kA := by
      simp only [List.length_zipWith]
      omega
    have hany := any_neg_iff (a := List.zipWith min A.U B.U) (b := List.zipWith max A.L B.L)
      (by omega)
    have hgetU : ∀ i, i < kA →
        (List.zipWith min A.U B.U).getD i 0 = min (A.U.getD i 0) (B.U.getD i 0) := by
      intro i hi
      exact getD_zipWith (by omega) (by omega)
    have hgetL : ∀ i, i < kA →
        (List.zipWith max A.L B.L).getD i 0 = max (A.L.getD i 0) (B.L.getD i 0) := by
      intro i hi
      exact getD_zipWith (by omega) (by omega)
    constructor
    · rintro ⟨i, hi, hneg⟩
      unfold HyperRectangle.intersect
      rw [if_neg (by omega), if_pos]
      apply hany.mpr
      refine ⟨i, by omega, ?_⟩
      rw [hgetU i hi, hgetL i hi]
      exact hneg
    · intro hnonneg
      unfold HyperRectangle.intersect
      rw [if_neg (by omega), if_neg]
      intro hcon
      obtain ⟨i, hi, hneg⟩ := hany.mp hcon
      have hik : i < kA := by omega
      rw [hgetU i hik, hgetL i hik] at hneg
      have := hnonneg i hik
      linarith

/-- Witness for C8 at the spec's S3 example: `[0,5] ∩ [4,8] = [4,5]`. -/
theorem claim_C8_witness :
    HyperRectangle.intersect { U := [5], L := [0] } { U := [8], L := [4] } =
      .ok (some { U := [5], L := [4] }) := by
  have h := (claim_C8_intersect { U := [5], L := [0] } { U := [8], L := [4] } 1 1
    rfl rfl rfl rfl).2 rfl
  refine h.2 ?_
  intro i hi
  have hi0 : i = 0 := by omega
  subst hi0
  simp only [List.getD]
  norm_num

/-! ### The `HoleFinder` engine (`bigholes/HoleFinder.py`) -/

/-- The expansion-strategy selector.  The source keys a dict by the strings
`sequential`, `even`, `random`; an enum models the three valid keys. -/
inductive Strategy where
  | sequential
  | even
  | random
  deriving DecidableEq, Repr

/-- `numpy.unique(data[:, i])`: the sorted, deduplicated values of coordinate
`i` across the data. -/
def projOf (data : List (List ℚ)) (i : Nat) : List ℚ :=
  List.insertionSort (fun a b => a ≤ b) (data.map (fun p => p.getD i 0)).dedup

/-- Column minimum (`numpy.min(data, axis=0)` entry `i`), defined on nonempty
data; seeded from the first row. -/
def colMin (data : List (List ℚ)) (i : Nat) : ℚ :=
  match data with
  | [] => 0
  | p :: rest => rest.foldl (fun acc q => min acc (q.getD i 0)) (p.getD i 0)

/-- Column maximum (`numpy.max(data, axis=0)` entry `i`). -/
def colMax (data : List (List ℚ)) (i : Nat) : ℚ :=
  match data with
  | [] => 0
  | p :: rest => rest.foldl (fun acc q => max acc (q.getD i 0)) (p.getD i 0)

/-- The engine state built by `HoleFinder.__init__`: the data matrix, its
shape, the per-dimension bounds and the projection tables.  (`self.maps` is a
reverse index from projection positions to data rows; it is modelled by the
accessor `pointsAt` below, which yields the same rows.) -/
structure HoleFinder where
  data : List (List ℚ)
  strategy : Strategy
  interiorOnly : Bool
  lows : List ℚ
  highs : List ℚ
  n : Nat
  k : Nat
  projections : List (List ℚ)
  deriving Repr

/-- Field computation of `HoleFinder.__init__` (the non-failing part). -/
def holeFinderOf (data : List (List ℚ)) (n k : Nat)
    (strategy : Strategy) (interiorOnly : Bool) : HoleFinder :=
  { data := data
    strategy := strategy
    interiorOnly := interiorOnly
    lows := (List.range k).map (colMin data)
    highs := (List.range k).map (colMax data)
    n := n
    k := k
    projections := (List.range k).map (projOf data) }

/-- `HoleFinder.__init__` including its failure behaviour: with a data matrix
of shape `(n, k)`, `numpy.min(data, axis=0)` raises `ValueError` ("zero-size
array to reduction operation minimum which has no identity") when the reduced
axis is empty and the result has at least one entry, i.e. when `n = 0` and
`0 < k`.  With `k = 0` the reduction result is empty and no error is raised,
so the constructor succeeds. -/
def mkHoleFinder (data : List (List ℚ)) (n k : Nat)
    (strategy : Strategy) (interiorOnly : Bool) : Except PyError HoleFinder :=
  if n = 0 ∧ 0 < k then .error .valueError
  else .ok (holeFinderOf data n k strategy interiorOnly)

/-- `self.projections[d]`. -/
def HoleFinder.proj (hf : HoleFinder) (d : Nat) : List ℚ :=
  hf.projections.getD d []

/-- `self.data[self.maps[d][t]]`: the data rows whose `d`-th coordinate equals
`self.projections[d][t]`. -/
def pointsAt (hf : HoleFinder) (d t : Nat) : List (List ℚ) :=
  hf.data.filter (fun p => decide (p.getD d 0 = (hf.proj d).getD t 0))

/-- `numpy.searchsorted(P, r)` (left side): for sorted `P`, the count of
entries smaller than `r` is the insertion index that keeps `P` sorted. -/
def searchsorted (P : List ℚ) (r : ℚ) : Nat :=
  P.countP (fun v => decide (v < r))

/-- `numpy.clip(x, lo, hi) = min(max(x, lo), hi)`; when `lo > hi` every result
equals `hi`. -/
def npClip (x lo hi : Nat) : Nat :=
  min (max x lo) hi

/-- The seed position `ndxs[i]` chosen by `_findRandomMEHR`: the insertion
index of the random draw `rs i`, clipped to `[1, len(projections[i])-1]`. -/
def seedNdx (hf : HoleFinder) (rs : Nat → ℚ) (i : Nat) : Nat :=
  npClip (searchsorted (hf.proj i) (rs i)) 1 ((hf.proj i).length - 1)

/-- The seed rectangle of `_findRandomMEHR`: `U[i] = projections[i][ndxs[i]]`
and `L[i] = projections[i][ndxs[i] - 1]`.  (When a projection has a single
value the clip yields `ndxs[i] = 0` and Python's index `-1` wraps to that same
single value, which truncated `Nat` subtraction reproduces.) -/
def makeSeed (hf : HoleFinder) (rs : Nat → ℚ) : HyperRectangle :=
  { U := (List.range hf.k).map (fun i => (hf.proj i).getD (seedNdx hf rs i) 0)
    L := (List.range hf.k).map (fun i => (hf.proj i).getD (seedNdx hf rs i - 1) 0) }

/-! ### Projection-table facts -/

/-- `getD` over a tabulated list. -/
theorem getD_map_range {f : Nat → ℚ} {k i : Nat} (hi : i < k) :
    ((List.range k).map f).getD i 0 = f i := by
  have hlen : i < ((List.range k).map f).length := by
    simpa using hi
  rw [List.getD_eq_getElem _ _ hlen, List.getElem_map, List.getElem_range]

/-- The projection table is strictly sorted. -/
theorem projOf_sorted (data : List (List ℚ)) (i : Nat) :
    (projOf data i).Sorted (· < ·) :=
  List.Sorted.lt_of_le (List.sorted_insertionSort _ _)
    (((List.perm_insertionSort _ _).nodup_iff).mpr (List.nodup_dedup _))

/-- Membership in the projection table is exactly taking a coordinate value in
the data. -/
theorem projOf_mem {data : List (List ℚ)} {i : Nat} {x : ℚ} :
    x ∈ projOf data i ↔ ∃ p ∈ data, p.getD i 0 = x := by
  rw [projOf, (List.perm_insertionSort _ _).mem_iff, List.mem_dedup, List.mem_map]

/-- A nonempty dataset has a nonempty projection on every dimension. -/
theorem projOf_length_pos {data : List (List ℚ)} (h : data ≠ []) (i : Nat) :
    0 < (projOf data i).length := by
  match data with
  | [] => exact absurd rfl h
  | p :: rest =>
    have : p.getD i 0 ∈ projOf (p :: rest) i :=
      projOf_mem.mpr ⟨p, List.mem_cons_self _ _, rfl⟩
    exact List.length_pos.mpr (List.ne_nil_of_mem this)

/-- For a strictly sorted list, `getD` is strictly monotone on indices. -/
theorem sorted_getD_lt_iff {P : List ℚ} (hs : P.Sorted (· < ·)) {i j : Nat}
    (hi : i < P.length) (hj : j < P.length) :
    P.getD i 0 < P.getD j 0 ↔ i < j := by
  rw [List.getD_eq_getElem _ _ hi, List.getD_eq_getElem _ _ hj]
  have h := hs.get_strictMono.lt_iff_lt (a := ⟨i, hi⟩) (b := ⟨j, hj⟩)
  simpa [List.get_eq_getElem, Fin.lt_def] using h

/-- No element of a strictly sorted list lies strictly between two consecutive
entries. -/
theorem no_strict_between {P : List ℚ} (hs : P.Sorted (· < ·)) {T : Nat}
    (hT : T < P.length) (hT0 : 0 < T) {x : ℚ} (hx : x ∈ P)
    (h1 : P.getD (T - 1) 0 < x) (h2 : x < P.getD T 0) : False := by
  obtain ⟨j, hj, rfl⟩ := List.mem_iff_getElem.mp hx
  rw [← List.getD_eq_getElem _ 0 hj] at h1 h2
  have hjT : j < T := (sorted_getD_lt_iff hs hj hT).mp h2
  have hTj : T - 1 < j := (sorted_getD_lt_iff hs (by omega) hj).mp h1
  omega

/-! ### Expansion strategies -/

/-- Mutable state shared by the expansion strategies: the rectangle, the
current projection positions of its faces (`undxs`, `lndxs`, numpy integer
arrays modelled as functions), and the `interior` flag. -/
structure ExpState where
  ehr : HyperRectangle
  undxs : Nat → Nat
  lndxs : Nat → Nat
  interior : Bool

/-- `numpy.any([ehr.inWay(p, d) for p in self.data[self.maps[d][t]]])`. -/
def anyInWay (hf : HoleFinder) (ehr : HyperRectangle) (d t : Nat) : Bool :=
  (pointsAt hf d t).any (fun p => ehr.inWay p d)

/-- The state passed by `_findRandomMEHR` to the strategy: the seed rectangle
with `undxs = ndxs` and `lndxs = ndxs - 1`. -/
def seedState (hf : HoleFinder) (rs : Nat → ℚ) : ExpState :=
  { ehr := makeSeed hf rs
    undxs := seedNdx hf rs
    lndxs := fun i => seedNdx hf rs i - 1
    interior := true }

/-- The upper `while True` loop of `_sequentialExpand`: push `undxs[d]` until a
bordering point is in the way or the edge of the space is reached, then record
`U[d]`.  The loop locks after at most `len(projections[d])` rounds (the index
grows toward `len - 1`), so it is run with explicit fuel that callers choose
sufficiently large; see `seqUpLoop_locks`. -/
def seqUpLoop (hf : HoleFinder) (d : Nat) : Nat → ExpState → ExpState
  | 0, st => st
  | fuel + 1, st =>
    let T := st.undxs d
    if anyInWay hf st.ehr d T || decide ((hf.proj d).length - 1 ≤ T) then
      { st with
        ehr := { st.ehr with U := st.ehr.U.set d ((hf.proj d).getD T 0) }
        interior := st.interior && !decide ((hf.proj d).length - 1 ≤ T) }
    else
      seqUpLoop hf d fuel
        { st with undxs := fun j => if j = d then T + 1 else st.undxs j }

/-- The lower `while True` loop of `_sequentialExpand` (lock at `lndxs[d] ≤ 0`,
record `L[d]`). -/
def seqDownLoop (hf : HoleFinder) (d : Nat) : Nat → ExpState → ExpState
  | 0, st => st
  | fuel + 1, st =>
    let T := st.lndxs d
    if anyInWay hf st.ehr d T || decide (T ≤ 0) then
      { st with
        ehr := { st.ehr with L := st.ehr.L.set d ((hf.proj d).getD T 0) }
        interior := st.interior && !decide (T ≤ 0) }
    else
      seqDownLoop hf d fuel
        { st with lndxs := fun j => if j = d then T - 1 else st.lndxs j }

/-- `_sequentialExpand`: for each dimension in the random `order`, push the
upper face until locked, then the lower face until locked. -/
def sequentialExpand (hf : HoleFinder) (order : List Nat) (st : ExpState) :
    HyperRectangle × Bool :=
  let final := order.foldl
    (fun st d =>
      seqDownLoop hf d ((hf.proj d).length + 1)
        (seqUpLoop hf d ((hf.proj d).length + 1) st)) st
  (final.ehr, final.interior)

/-- One dimension of a cycle of `_evenExpand`: with coin `coin`, attempt one
upper push if `coin` and the upper face is unlocked, one lower push if `!coin`
and the lower face is unlocked, otherwise fall through. -/
def evenStep (hf : HoleFinder) (coin : Bool)
    (s : (Nat → Bool) × (Nat → Bool) × ExpState) (d : Nat) :
    (Nat → Bool) × (Nat → Bool) × ExpState :=
  let ub := s.1
  let lb := s.2.1
  let st := s.2.2
  if coin && !ub d then
    let T := st.undxs d
    if anyInWay hf st.ehr d T || decide ((hf.proj d).length - 1 ≤ T) then
      (fun j => if j = d then true else ub j, lb,
        { st with interior := st.interior && !decide ((hf.proj d).length - 1 ≤ T) })
    else
      (ub, lb,
        { st with
          undxs := fun j => if j = d then T + 1 else st.undxs j
          ehr := { st.ehr with U := st.ehr.U.set d ((hf.proj d).getD (T + 1) 0) } })
  else if !coin && !lb d then
    let T := st.lndxs d
    if anyInWay hf st.ehr d T || decide (T ≤ 0) then
      (ub, fun j => if j = d then true else lb j,
        { st with interior := st.interior && !decide (T ≤ 0) })
    else
      (ub, lb,
        { st with
          lndxs := fun j => if j = d then T - 1 else st.lndxs j
          ehr := { st.ehr with L := st.ehr.L.set d ((hf.proj d).getD (T - 1) 0) } })
  else s

/-- One full cycle of `_evenExpand` over the fixed `order`, consuming one coin
per dimension starting at stream position `t`. -/
def evenCycle (hf : HoleFinder) (coins : Nat → Bool) (order : List Nat) (t : Nat)
    (s : (Nat → Bool) × (Nat → Bool) × ExpState) :
    (Nat → Bool) × (Nat → Bool) × ExpState :=
  (order.foldl
    (fun (acc : Nat × (Nat → Bool) × (Nat → Bool) × ExpState) d =>
      (acc.1 + 1, evenStep hf (coins acc.1) acc.2 d)) (t, s)).2

/-- The outer `while` loop of `_evenExpand` (condition: not yet bounded on all
sides, and — under interior-only — still interior).  An adversarial coin
stream can starve an unlocked face forever, so the loop carries fuel; `none`
models a run that has not yet returned. -/
def evenLoop (hf : HoleFinder) (order : List Nat) (coins : Nat → Bool) :
    Nat → Nat → (Nat → Bool) × (Nat → Bool) × ExpState →
      Option (HyperRectangle × Bool)
  | 0, _, _ => none
  | fuel + 1, t, s =>
    if !((List.range hf.k).all s.2.1 && (List.range hf.k).all s.1) &&
        (s.2.2.interior || !hf.interiorOnly) then
      evenLoop hf order coins fuel (t + order.length) (evenCycle hf coins order t s)
    else
      some (s.2.2.ehr, s.2.2.interior)

/-- `_evenExpand`: both bound masks start all-false. -/
def evenExpand (hf : HoleFinder) (order : List Nat) (coins : Nat → Bool)
    (fuel : Nat) (st : ExpState) : Option (HyperRectangle × Bool) :=
  evenLoop hf order coins fuel 0 (fun _ => false, fun _ => false, st)

/-- The upward burst of `_randomExpand`: up to `steps` consecutive pushes of
the upper face of dimension `d`; returns the updated state and whether the
face locked (in which case the caller removes the `(d, up)` pair). -/
def randUpBurst (hf : HoleFinder) (d : Nat) : Nat → ExpState → ExpState × Bool
  | 0, st => (st, false)
  | steps + 1, st =>
    let T := st.undxs d
    if anyInWay hf st.ehr d T || decide ((hf.proj d).length - 1 ≤ T) then
      ({ st with interior := st.interior && !decide ((hf.proj d).length - 1 ≤ T) }, true)
    else
      randUpBurst hf d steps
        { st with
          undxs := fun j => if j = d then T + 1 else st.undxs j
          ehr := { st.ehr with U := st.ehr.U.set d ((hf.proj d).getD (T + 1) 0) } }

/-- The downward burst of `_randomExpand`. -/
def randDownBurst (hf : HoleFinder) (d : Nat) : Nat → ExpState → ExpState × Bool
  | 0, st => (st, false)
  | steps + 1, st =>
    let T := st.lndxs d
    if anyInWay hf st.ehr d T || decide (T ≤ 0) then
      ({ st with interior := st.interior && !decide (T ≤ 0) }, true)
    else
      randDownBurst hf d steps
        { st with
          lndxs := fun j => if j = d then T - 1 else st.lndxs j
          ehr := { st.ehr with L := st.ehr.L.set d ((hf.proj d).getD (T - 1) 0) } }

/-- The outer `while directions` loop of `_randomExpand`.  `rs i` supplies the
`i`-th uniform index draw (`numpy.random.randint(len(directions))`, taken mod
the current length) and `ss i` the `i`-th burst length minus one
(`int(abs(numpy.random.normal()))`). -/
def randLoop (hf : HoleFinder) (rs ss : Nat → Nat) :
    Nat → Nat → List (Nat × Bool) → ExpState → Option (HyperRectangle × Bool)
  | 0, _, _, _ => none
  | fuel + 1, i, dirs, st =>
    if !dirs.isEmpty && (st.interior || !hf.interiorOnly) then
      let r := rs i % dirs.length
      let dc := dirs.getD r (0, false)
      let steps := ss i + 1
      let res :=
        if dc.2 then randUpBurst hf dc.1 steps st else randDownBurst hf dc.1 steps st
      let dirs' := if res.2 then dirs.take r ++ dirs.drop (r + 1) else dirs
      randLoop hf rs ss fuel (i + 1) dirs' res.1
    else
      some (st.ehr, st.interior)

/-- `_randomExpand`: directions start as `product(range(k), [0, 1])` with
`false = 0 = down`, `true = 1 = up`.  (This loop always terminates — every
iteration pushes a face or removes a pair — but it is run on explicit fuel
like the others.) -/
def randomExpand (hf : HoleFinder) (rs ss : Nat → Nat) (fuel : Nat) (st : ExpState) :
    Option (HyperRectangle × Bool) :=
  randLoop hf rs ss fuel 0
    ((List.range hf.k).flatMap (fun d => [(d, false), (d, true)])) st

/-! ### Helper facts about `set`, `getD`, `inWay` and `anyInWay` -/

/-- Setting an in-range entry to its current value is the identity. -/
theorem set_getD_self {l : List ℚ} {i : Nat} (hi : i < l.length) :
    l.set i (l.getD i 0) = l := by
  apply List.ext_getElem (by simp)
  intro j hj hj'
  rw [List.getElem_set]
  split
  · next h => subst h; rw [List.getD_eq_getElem _ _ hi]
  · rfl

/-- `getD` after `set` at the written position. -/
theorem getD_set_self {l : List ℚ} {i : Nat} {v : ℚ} (hi : i < l.length) :
    (l.set i v).getD i 0 = v := by
  rw [List.getD_eq_getElem _ _ (by simpa using hi), List.getElem_set]
  simp

/-- `getD` after `set` at another position. -/
theorem getD_set_ne {l : List ℚ} {i j : Nat} {v : ℚ} (hij : i ≠ j) :
    (l.set i v).getD j 0 = l.getD j 0 := by
  by_cases hj : j < l.length
  · rw [List.getD_eq_getElem _ _ (by simpa using hj), List.getD_eq_getElem _ _ hj,
      List.getElem_set]
    simp [hij]
  · rw [List.getD_eq_default _ _ (by simpa using Nat.le_of_not_lt hj),
      List.getD_eq_default _ _ (Nat.le_of_not_lt hj)]

/-- `inWay` ignores the upper bound of the queried dimension. -/
theorem inWay_set_U (r : HyperRectangle) (p : List ℚ) (d : Nat) (v : ℚ) :
    HyperRectangle.inWay { r with U := r.U.set d v } p d = r.inWay p d := by
  have key : (List.zipWith (fun u x => decide (u > x)) (r.U.set d v) p).set d true =
      (List.zipWith (fun u x => decide (u > x)) r.U p).set d true := by
    apply List.ext_getElem (by simp)
    intro j hj hj'
    rw [List.getElem_set, List.getElem_set]
    split
    · rfl
    · next hne =>
      rw [List.getElem_zipWith, List.getElem_zipWith, List.getElem_set_ne hne]
  show (((List.zipWith (fun l x => decide (l < x)) r.L p).set d true).all id &&
      ((List.zipWith (fun u x => decide (u > x)) (r.U.set d v) p).set d true).all id) =
      (((List.zipWith (fun l x => decide (l < x)) r.L p).set d true).all id &&
      ((List.zipWith (fun u x => decide (u > x)) r.U p).set d true).all id)
  rw [key]

/-- `inWay` ignores the lower bound of the queried dimension. -/
theorem inWay_set_L (r : HyperRectangle) (p : List ℚ) (d : Nat) (v : ℚ) :
    HyperRectangle.inWay { r with L := r.L.set d v } p d = r.inWay p d := by
  have key : (List.zipWith (fun l x => decide (l < x)) (r.L.set d v) p).set d true =
      (List.zipWith (fun l x => decide (l < x)) r.L p).set d true := by
    apply List.ext_getElem (by simp)
    intro j hj hj'
    rw [List.getElem_set, List.getElem_set]
    split
    · rfl
    · next hne =>
      rw [List.getElem_zipWith, List.getElem_zipWith, List.getElem_set_ne hne]
  show (((List.zipWith (fun l x => decide (l < x)) (r.L.set d v) p).set d true).all id &&
      ((List.zipWith (fun u x => decide (u > x)) r.U p).set d true).all id) =
      (((List.zipWith (fun l x => decide (l < x)) r.L p).set d true).all id &&
      ((List.zipWith (fun u x => decide (u > x)) r.U p).set d true).all id)
  rw [key]

/-- Characterization of `anyInWay`. -/
theorem anyInWay_iff (hf : HoleFinder) (ehr : HyperRectangle) (d t : Nat) :
    anyInWay hf ehr d t = true ↔
      ∃ p ∈ hf.data, p.getD d 0 = (hf.proj d).getD t 0 ∧ ehr.inWay p d = true := by
  rw [anyInWay, List.any_eq_true]
  constructor
  · rintro ⟨p, hp, hway⟩
    rw [pointsAt, List.mem_filter] at hp
    exact ⟨p, hp.1, of_decide_eq_true hp.2, hway⟩
  · rintro ⟨p, hp, heq, hway⟩
    exact ⟨p, List.mem_filter.mpr ⟨hp, decide_eq_true heq⟩, hway⟩

/-- `anyInWay = false` means no bordering point is in the way. -/
theorem anyInWay_eq_false_iff (hf : HoleFinder) (ehr : HyperRectangle) (d t : Nat) :
    anyInWay hf ehr d t = false ↔
      ∀ p ∈ hf.data, p.getD d 0 = (hf.proj d).getD t 0 → ehr.inWay p d = false := by
  rw [← Bool.not_eq_true, anyInWay_iff]
  push_neg
  constructor
  · intro h p hp heq
    have := h p hp heq
    cases hb : ehr.inWay p d
    · rfl
    · exact absurd hb this
  · intro h p hp heq
    rw [h p hp heq]
    exact Bool.false_ne_true

/-- Characterization of `isEmpty`. -/
theorem isEmpty_iff (r : HyperRectangle) (data : List (List ℚ)) :
    r.isEmpty data = true ↔ ∀ p ∈ data, r.contains p = false := by
  rw [HyperRectangle.isEmpty, List.all_eq_true]
  constructor
  · intro h p hp
    have := h p hp
    rwa [Bool.not_eq_true'] at this
  · intro h p hp
    rw [Bool.not_eq_true']
    exact h p hp

/-! ### The atomic face-push relation -/

/-- Engine well-formedness: rows have width `k` and the projection tables are
the per-dimension sorted unique coordinate values. -/
def HFWf (hf : HoleFinder) : Prop :=
  (∀ p ∈ hf.data, p.length = hf.k) ∧
  ∀ d, d < hf.k → hf.proj d = projOf hf.data d

/-- `holeFinderOf` builds a well-formed engine from well-formed data. -/
theorem holeFinderOf_wf (data : List (List ℚ)) (n k : Nat)
    (strategy : Strategy) (interiorOnly : Bool)
    (hwf : ∀ p ∈ data, p.length = k) :
    HFWf (holeFinderOf data n k strategy interiorOnly) := by
  refine ⟨hwf, fun d hd => ?_⟩
  rw [HoleFinder.proj, holeFinderOf]
  simp only
  rw [List.getD_eq_getElem _ _ (by simpa using hd), List.getElem_map, List.getElem_range]

/-- One atomic state transition of an expansion: pushing the upper or lower
face of a dimension one notch (under the source's push conditions), or
rewriting the `interior` flag. -/
inductive EStep (hf : HoleFinder) : ExpState → ExpState → Prop where
  | up (st : ExpState) (d : Nat) (hd : d < hf.k)
      (hnb : anyInWay hf st.ehr d (st.undxs d) = false)
      (hlt : st.undxs d + 1 < (hf.proj d).length) :
      EStep hf st
        { st with
          undxs := fun j => if j = d then st.undxs d + 1 else st.undxs j
          ehr := { st.ehr with
                   U := st.ehr.U.set d ((hf.proj d).getD (st.undxs d + 1) 0) } }
  | down (st : ExpState) (d : Nat) (hd : d < hf.k)
      (hnb : anyInWay hf st.ehr d (st.lndxs d) = false)
      (hpos : 0 < st.lndxs d) :
      EStep hf st
        { st with
          lndxs := fun j => if j = d then st.lndxs d - 1 else st.lndxs j
          ehr := { st.ehr with
                   L := st.ehr.L.set d ((hf.proj d).getD (st.lndxs d - 1) 0) } }
  | flag (st : ExpState) (b : Bool) :
      EStep hf st { st with interior := b }

/-- Reachability by atomic pushes. -/
def Reach (hf : HoleFinder) : ExpState → ExpState → Prop :=
  Relation.ReflTransGen (EStep hf)

/-- The expansion-state invariant: bound vectors have width `k`, face indices
are in range and ordered, and the rectangle's bounds coincide with the
projection entries at the face indices. -/
def Inv (hf : HoleFinder) (st : ExpState) : Prop :=
  st.ehr.U.length = hf.k ∧ st.ehr.L.length = hf.k ∧
  ∀ d, d < hf.k →
    st.undxs d < (hf.proj d).length ∧
    st.lndxs d ≤ st.undxs d ∧
    (st.lndxs d < st.undxs d ∨ (hf.proj d).length = 1) ∧
    st.ehr.U.getD d 0 = (hf.proj d).getD (st.undxs d) 0 ∧
    st.ehr.L.getD d 0 = (hf.proj d).getD (st.lndxs d) 0

/-- For a strictly sorted list, `getD` is monotone. -/
theorem sorted_getD_le {P : List ℚ} (hs : P.Sorted (· < ·)) {i j : Nat}
    (hij : i ≤ j) (hj : j < P.length) :
    P.getD i 0 ≤ P.getD j 0 := by
  rcases Nat.lt_or_ge i j with h | h
  · exact le_of_lt ((sorted_getD_lt_iff hs (by omega) hj).mpr h)
  · have : i = j := by omega
    subst this
    exact le_refl _

/-- The projection accessed through a well-formed engine is strictly sorted. -/
theorem proj_sorted {hf : HoleFinder} (hwf : HFWf hf) {d : Nat} (hd : d < hf.k) :
    (hf.proj d).Sorted (· < ·) := by
  rw [hwf.2 d hd]
  exact projOf_sorted _ _

/-- Membership in an accessed projection. -/
theorem proj_mem {hf : HoleFinder} (hwf : HFWf hf) {d : Nat} (hd : d < hf.k)
    {x : ℚ} : x ∈ hf.proj d ↔ ∃ p ∈ hf.data, p.getD d 0 = x := by
  rw [hwf.2 d hd]
  exact projOf_mem

/-- `inWay` is monotone under enlarging the rectangle on the non-queried
dimensions. -/
theorem inWay_mono {r r' : HyperRectangle} {p : List ℚ} {d k : Nat}
    (hU : r.U.length = k) (hL : r.L.length = k)
    (hU' : r'.U.length = k) (hL' : r'.L.length = k) (hp : p.length = k)
    (hgrow : ∀ j, j < k → j ≠ d →
      r.U.getD j 0 ≤ r'.U.getD j 0 ∧ r'.L.getD j 0 ≤ r.L.getD j 0)
    (h : r.inWay p d = true) : r'.inWay p d = true := by
  rw [inWay_iff r p d k hU hL hp] at h
  rw [inWay_iff r' p d k hU' hL' hp]
  intro j hj hjd
  obtain ⟨h1, h2⟩ := h j hj hjd
  obtain ⟨g1, g2⟩ := hgrow j hj hjd
  exact ⟨lt_of_le_of_lt g2 h1, lt_of_lt_of_le h2 g1⟩

/-- Pushing the upper face of `d` one notch (under the source's push
condition) preserves emptiness of the rectangle. -/
theorem notchUp_empty {hf : HoleFinder} (hwf : HFWf hf) {st : ExpState} {d : Nat}
    (hd : d < hf.k) (hInv : Inv hf st)
    (hnb : anyInWay hf st.ehr d (st.undxs d) = false)
    (hlt : st.undxs d + 1 < (hf.proj d).length)
    (hempty : st.ehr.isEmpty hf.data = true) :
    HyperRectangle.isEmpty
      { st.ehr with U := st.ehr.U.set d ((hf.proj d).getD (st.undxs d + 1) 0) }
      hf.data = true := by
  obtain ⟨hUlen, hLlen, hdim⟩ := hInv
  obtain ⟨hTlen, _, _, hUcon, _⟩ := hdim d hd
  rw [isEmpty_iff] at hempty ⊢
  intro p hp
  by_contra hcon
  have hcont : HyperRectangle.contains
      { st.ehr with U := st.ehr.U.set d ((hf.proj d).getD (st.undxs d + 1) 0) } p = true := by
    cases hb : HyperRectangle.contains
        { st.ehr with U := st.ehr.U.set d ((hf.proj d).getD (st.undxs d + 1) 0) } p
    · exact absurd hb hcon
    · rfl
  have hplen : p.length = hf.k := hwf.1 p hp
  have hU'len : (st.ehr.U.set d ((hf.proj d).getD (st.undxs d + 1) 0)).length = hf.k := by
    simpa using hUlen
  have hchar : ∀ i, i < hf.k →
      st.ehr.L.getD i 0 < p.getD i 0 ∧
      p.getD i 0 < (st.ehr.U.set d ((hf.proj d).getD (st.undxs d + 1) 0)).getD i 0 :=
    (contains_iff
      (HyperRectangle.mk (st.ehr.U.set d ((hf.proj d).getD (st.undxs d + 1) 0)) st.ehr.L)
      p hf.k hU'len hLlen hplen).mp hcont
  have hd1 : st.ehr.L.getD d 0 < p.getD d 0 := (hchar d hd).1
  have hd2 : p.getD d 0 < (st.ehr.U.set d ((hf.proj d).getD (st.undxs d + 1) 0)).getD d 0 :=
    (hchar d hd).2
  rw [getD_set_self (by omega)] at hd2
  have hsorted := proj_sorted hwf hd
  have hpmem : p.getD d 0 ∈ hf.proj d := (proj_mem hwf hd).mpr ⟨p, hp, rfl⟩
  obtain ⟨j, hj, hjv⟩ := List.mem_iff_getElem.mp hpmem
  rw [← List.getD_eq_getElem _ 0 hj] at hjv
  have hjlt : j < st.undxs d + 1 := by
    apply (sorted_getD_lt_iff hsorted hj hlt).mp
    rw [hjv]
    exact hd2
  have hple : p.getD d 0 ≤ (hf.proj d).getD (st.undxs d) 0 := by
    rw [← hjv]
    exact sorted_getD_le hsorted (by omega) hTlen
  rcases lt_or_eq_of_le hple with hplt | hpeq
  · -- the point was already strictly inside the un-pushed rectangle
    apply absurd (hempty p hp)
    rw [Bool.not_eq_false]
    rw [contains_iff _ p hf.k hUlen hLlen hplen]
    intro i hi
    rcases eq_or_ne i d with rfl | hne
    · exact ⟨hd1, by rw [hUcon]; exact hplt⟩
    · obtain ⟨h1, h2⟩ := hchar i hi
      rw [getD_set_ne (fun h => hne h.symm)] at h2
      exact ⟨h1, h2⟩
  · -- the point borders the face, so it was screened by `anyInWay`
    have hway : st.ehr.inWay p d = true := by
      rw [inWay_iff _ p d hf.k hUlen hLlen hplen]
      intro i hi hid
      obtain ⟨h1, h2⟩ := hchar i hi
      rw [getD_set_ne (fun h => hid h.symm)] at h2
      exact ⟨h1, h2⟩
    have := (anyInWay_eq_false_iff hf st.ehr d (st.undxs d)).mp hnb p hp hpeq
    rw [hway] at this
    simp at this

/-- Pushing the lower face of `d` one notch preserves emptiness. -/
theorem notchDown_empty {hf : HoleFinder} (hwf : HFWf hf) {st : ExpState} {d : Nat}
    (hd : d < hf.k) (hInv : Inv hf st)
    (hnb : anyInWay hf st.ehr d (st.lndxs d) = false)
    (hpos : 0 < st.lndxs d)
    (hempty : st.ehr.isEmpty hf.data = true) :
    HyperRectangle.isEmpty
      { st.ehr with L := st.ehr.L.set d ((hf.proj d).getD (st.lndxs d - 1) 0) }
      hf.data = true := by
  obtain ⟨hUlen, hLlen, hdim⟩ := hInv
  obtain ⟨hTlen, hle, _, _, hLcon⟩ := hdim d hd
  rw [isEmpty_iff] at hempty ⊢
  intro p hp
  by_contra hcon
  have hcont : HyperRectangle.contains
      { st.ehr with L := st.ehr.L.set d ((hf.proj d).getD (st.lndxs d - 1) 0) } p = true := by
    cases hb : HyperRectangle.contains
        { st.ehr with L := st.ehr.L.set d ((hf.proj d).getD (st.lndxs d - 1) 0) } p
    · exact absurd hb hcon
    · rfl
  have hplen : p.length = hf.k := hwf.1 p hp
  have hL'len : (st.ehr.L.set d ((hf.proj d).getD (st.lndxs d - 1) 0)).length = hf.k := by
    simpa using hLlen
  have hchar : ∀ i, i < hf.k →
      (st.ehr.L.set d ((hf.proj d).getD (st.lndxs d - 1) 0)).getD i 0 < p.getD i 0 ∧
      p.getD i 0 < st.ehr.U.getD i 0 :=
    (contains_iff
      (HyperRectangle.mk st.ehr.U (st.ehr.L.set d ((hf.proj d).getD (st.lndxs d - 1) 0)))
      p hf.k hUlen hL'len hplen).mp hcont
  have hd1 : (st.ehr.L.set d ((hf.proj d).getD (st.lndxs d - 1) 0)).getD d 0 < p.getD d 0 :=
    (hchar d hd).1
  have hd2 : p.getD d 0 < st.ehr.U.getD d 0 := (hchar d hd).2
  rw [getD_set_self (by omega)] at hd1
  have hsorted := proj_sorted hwf hd
  have hpmem : p.getD d 0 ∈ hf.proj d := (proj_mem hwf hd).mpr ⟨p, hp, rfl⟩
  obtain ⟨j, hj, hjv⟩ := List.mem_iff_getElem.mp hpmem
  rw [← List.getD_eq_getElem _ 0 hj] at hjv
  have hjgt : st.lndxs d - 1 < j := by
    apply (sorted_getD_lt_iff hsorted (by omega) hj).mp
    rw [hjv]
    exact hd1
  have hpge : (hf.proj d).getD (st.lndxs d) 0 ≤ p.getD d 0 := by
    rw [← hjv]
    exact sorted_getD_le hsorted (by omega) hj
  rcases lt_or_eq_of_le hpge with hplt | hpeq
  · apply absurd (hempty p hp)
    rw [Bool.not_eq_false]
    rw [contains_iff _ p hf.k hUlen hLlen hplen]
    intro i hi
    rcases eq_or_ne i d with rfl | hne
    · exact ⟨by rw [hLcon]; exact hplt, hd2⟩
    · obtain ⟨h1, h2⟩ := hchar i hi
      rw [getD_set_ne (fun h => hne h.symm)] at h1
      exact ⟨h1, h2⟩
  · have hway : st.ehr.inWay p d = true := by
      rw [inWay_iff _ p d hf.k hUlen hLlen hplen]
      intro i hi hid
      obtain ⟨h1, h2⟩ := hchar i hi
      rw [getD_set_ne (fun h => hid h.symm)] at h1
      exact ⟨h1, h2⟩
    have := (anyInWay_eq_false_iff hf st.ehr d (st.lndxs d)).mp hnb p hp hpeq.symm
    rw [hway] at this
    simp at this

/-- The upper face of dimension `d` is locked: a bordering point is in the way
of pushing it, or it sits at the top of the projection. -/
def UpLockedAt (hf : HoleFinder) (st : ExpState) (d : Nat) : Prop :=
  (∃ p ∈ hf.data, p.getD d 0 = (hf.proj d).getD (st.undxs d) 0 ∧
    st.ehr.inWay p d = true) ∨
  st.undxs d = (hf.proj d).length - 1

/-- The lower face of dimension `d` is locked. -/
def DownLockedAt (hf : HoleFinder) (st : ExpState) (d : Nat) : Prop :=
  (∃ p ∈ hf.data, p.getD d 0 = (hf.proj d).getD (st.lndxs d) 0 ∧
    st.ehr.inWay p d = true) ∨
  st.lndxs d = 0

/-- An atomic push preserves the expansion-state invariant. -/
theorem Inv_step {hf : HoleFinder} {st st' : ExpState}
    (h : EStep hf st st') (hInv : Inv hf st) : Inv hf st' := by
  obtain ⟨hU, hL, hdim⟩ := hInv
  cases h with
  | up d hd hnb hlt =>
    refine ⟨by simpa using hU, hL, ?_⟩
    intro d' hd'
    obtain ⟨h1, h2, h3, h4, h5⟩ := hdim d' hd'
    by_cases hdd : d' = d
    · subst hdd
      refine ⟨?_, ?_, ?_, ?_, ?_⟩
      · show (if d' = d' then st.undxs d' + 1 else st.undxs d') < _
        rw [if_pos rfl]
        exact hlt
      · show st.lndxs d' ≤ if d' = d' then st.undxs d' + 1 else st.undxs d'
        rw [if_pos rfl]
        omega
      · left
        show st.lndxs d' < if d' = d' then st.undxs d' + 1 else st.undxs d'
        rw [if_pos rfl]
        omega
      · show (st.ehr.U.set d' ((hf.proj d').getD (st.undxs d' + 1) 0)).getD d' 0 =
          (hf.proj d').getD (if d' = d' then st.undxs d' + 1 else st.undxs d') 0
        rw [if_pos rfl, getD_set_self (by omega)]
      · show st.ehr.L.getD d' 0 = (hf.proj d').getD (st.lndxs d') 0
        exact h5
    · refine ⟨?_, ?_, ?_, ?_, ?_⟩
      · show (if d' = d then st.undxs d + 1 else st.undxs d') < _
        rw [if_neg hdd]
        exact h1
      · show st.lndxs d' ≤ if d' = d then st.undxs d + 1 else st.undxs d'
        rw [if_neg hdd]
        exact h2
      · rcases h3 with h3 | h3
        · left
          show st.lndxs d' < if d' = d then st.undxs d + 1 else st.undxs d'
          rw [if_neg hdd]
          exact h3
        · right
          exact h3
      · show (st.ehr.U.set d ((hf.proj d).getD (st.undxs d + 1) 0)).getD d' 0 =
          (hf.proj d').getD (if d' = d then st.undxs d + 1 else st.undxs d') 0
        rw [if_neg hdd, getD_set_ne (fun hc => hdd hc.symm)]
        exact h4
      · exact h5
  | down d hd hnb hpos =>
    refine ⟨hU, by simpa using hL, ?_⟩
    intro d' hd'
    obtain ⟨h1, h2, h3, h4, h5⟩ := hdim d' hd'
    by_cases hdd : d' = d
    · subst hdd
      refine ⟨h1, ?_, ?_, h4, ?_⟩
      · show (if d' = d' then st.lndxs d' - 1 else st.lndxs d') ≤ st.undxs d'
        rw [if_pos rfl]
        omega
      · left
        show (if d' = d' then st.lndxs d' - 1 else st.lndxs d') < st.undxs d'
        rw [if_pos rfl]
        omega
      · show (st.ehr.L.set d' ((hf.proj d').getD (st.lndxs d' - 1) 0)).getD d' 0 =
          (hf.proj d').getD (if d' = d' then st.lndxs d' - 1 else st.lndxs d') 0
        rw [if_pos rfl, getD_set_self (by omega)]
    · refine ⟨h1, ?_, ?_, h4, ?_⟩
      · show (if d' = d then st.lndxs d - 1 else st.lndxs d') ≤ st.undxs d'
        rw [if_neg hdd]
        exact h2
      · rcases h3 with h3 | h3
        · left
          show (if d' = d then st.lndxs d - 1 else st.lndxs d') < st.undxs d'
          rw [if_neg hdd]
          exact h3
        · right
          exact h3
      · show (st.ehr.L.set d ((hf.proj d).getD (st.lndxs d - 1) 0)).getD d' 0 =
          (hf.proj d').getD (if d' = d then st.lndxs d - 1 else st.lndxs d') 0
        rw [if_neg hdd, getD_set_ne (fun hc => hdd hc.symm)]
        exact h5
  | flag b =>
    exact ⟨hU, hL, hdim⟩

/-- An atomic push preserves emptiness of the rectangle. -/
theorem empty_step {hf : HoleFinder} {st st' : ExpState} (hwf : HFWf hf)
    (h : EStep hf st st') (hInv : Inv hf st)
    (he : st.ehr.isEmpty hf.data = true) : st'.ehr.isEmpty hf.data = true := by
  cases h with
  | up d hd hnb hlt => exact notchUp_empty hwf hd hInv hnb hlt he
  | down d hd hnb hpos => exact notchDown_empty hwf hd hInv hnb hpos he
  | flag b => exact he

/-- An atomic push only moves faces outward. -/
theorem growth_step {hf : HoleFinder} {st st' : ExpState} (hwf : HFWf hf)
    (h : EStep hf st st') (hInv : Inv hf st) :
    ∀ d', d' < hf.k →
      st.ehr.U.getD d' 0 ≤ st'.ehr.U.getD d' 0 ∧
      st'.ehr.L.getD d' 0 ≤ st.ehr.L.getD d' 0 := by
  obtain ⟨hU, hL, hdim⟩ := hInv
  intro d' hd'
  cases h with
  | up d hd hnb hlt =>
    refine ⟨?_, le_refl _⟩
    by_cases hdd : d' = d
    · subst hdd
      obtain ⟨h1, _, _, h4, _⟩ := hdim d' hd'
      show st.ehr.U.getD d' 0 ≤ (st.ehr.U.set d' ((hf.proj d').getD (st.undxs d' + 1) 0)).getD d' 0
      rw [getD_set_self (by omega), h4]
      exact sorted_getD_le (proj_sorted hwf hd') (by omega) hlt
    · show st.ehr.U.getD d' 0 ≤ (st.ehr.U.set d ((hf.proj d).getD (st.undxs d + 1) 0)).getD d' 0
      rw [getD_set_ne (fun hc => hdd hc.symm)]
  | down d hd hnb hpos =>
    refine ⟨le_refl _, ?_⟩
    by_cases hdd : d' = d
    · subst hdd
      obtain ⟨h1, _, _, _, h5⟩ := hdim d' hd'
      show (st.ehr.L.set d' ((hf.proj d').getD (st.lndxs d' - 1) 0)).getD d' 0 ≤ st.ehr.L.getD d' 0
      rw [getD_set_self (by omega), h5]
      exact sorted_getD_le (proj_sorted hwf hd') (by omega) (by omega)
    · show (st.ehr.L.set d ((hf.proj d).getD (st.lndxs d - 1) 0)).getD d' 0 ≤ st.ehr.L.getD d' 0
      rw [getD_set_ne (fun hc => hdd hc.symm)]
  | flag b =>
    exact ⟨le_refl _, le_refl _⟩

/-- An atomic push cannot unlock a locked upper face (pushing a locked face is
impossible, and other pushes only enlarge the rectangle). -/
theorem upLocked_step {hf : HoleFinder} {st st' : ExpState} (hwf : HFWf hf)
    (h : EStep hf st st') (hInv : Inv hf st) (d : Nat) (hd : d < hf.k)
    (hlock : UpLockedAt hf st d) : UpLockedAt hf st' d := by
  have hUlen := hInv.1
  have hLlen := hInv.2.1
  cases h with
  | up d₀ hd₀ hnb hlt =>
    by_cases hdd : d₀ = d
    · subst hdd
      rcases hlock with ⟨p, hp, heq, hway⟩ | hbd
      · rw [(anyInWay_iff hf st.ehr d₀ (st.undxs d₀)).mpr ⟨p, hp, heq, hway⟩] at hnb
        cases hnb
      · omega
    · rcases hlock with ⟨p, hp, heq, hway⟩ | hbd
      · left
        refine ⟨p, hp, ?_, ?_⟩
        · show p.getD d 0 =
            (hf.proj d).getD (if d = d₀ then st.undxs d₀ + 1 else st.undxs d) 0
          rw [if_neg (fun hc => hdd hc.symm)]
          exact heq
        · refine inWay_mono (k := hf.k) hUlen hLlen (by simpa using hUlen)
            (by exact hLlen) (hwf.1 p hp) ?_ hway
          intro j hj hjd
          by_cases hjj : j = d₀
          · subst hjj
            obtain ⟨h1, _, _, h4, _⟩ := hInv.2.2 j hj
            constructor
            · show st.ehr.U.getD j 0 ≤
                (st.ehr.U.set j ((hf.proj j).getD (st.undxs j + 1) 0)).getD j 0
              rw [getD_set_self (by omega), h4]
              exact sorted_getD_le (proj_sorted hwf hj) (by omega) hlt
            · exact le_refl _
          · constructor
            · show st.ehr.U.getD j 0 ≤
                (st.ehr.U.set d₀ ((hf.proj d₀).getD (st.undxs d₀ + 1) 0)).getD j 0
              rw [getD_set_ne (fun hc => hjj hc.symm)]
            · exact le_refl _
      · right
        show (if d = d₀ then st.undxs d₀ + 1 else st.undxs d) = (hf.proj d).length - 1
        rw [if_neg (fun hc => hdd hc.symm)]
        exact hbd
  | down d₀ hd₀ hnb hpos =>
    rcases hlock with ⟨p, hp, heq, hway⟩ | hbd
    · left
      refine ⟨p, hp, heq, ?_⟩
      by_cases hdd : d₀ = d
      · subst hdd
        show HyperRectangle.inWay
          { st.ehr with L := st.ehr.L.set d₀ ((hf.proj d₀).getD (st.lndxs d₀ - 1) 0) } p d₀ = true
        rw [inWay_set_L]
        exact hway
      · refine inWay_mono (k := hf.k) hUlen hLlen (by exact hUlen)
          (by simpa using hLlen) (hwf.1 p hp) ?_ hway
        intro j hj hjd
        by_cases hjj : j = d₀
        · subst hjj
          obtain ⟨h1, h2, _, _, h5⟩ := hInv.2.2 j hj
          refine ⟨le_refl _, ?_⟩
          show (st.ehr.L.set j ((hf.proj j).getD (st.lndxs j - 1) 0)).getD j 0 ≤
            st.ehr.L.getD j 0
          rw [getD_set_self (by omega), h5]
          exact sorted_getD_le (proj_sorted hwf hj) (by omega) (by omega)
        · refine ⟨le_refl _, ?_⟩
          show (st.ehr.L.set d₀ ((hf.proj d₀).getD (st.lndxs d₀ - 1) 0)).getD j 0 ≤
            st.ehr.L.getD j 0
          rw [getD_set_ne (fun hc => hjj hc.symm)]
    · right
      exact hbd
  | flag b =>
    exact hlock

/-- An atomic push cannot unlock a locked lower face. -/
theorem downLocked_step {hf : HoleFinder} {st st' : ExpState} (hwf : HFWf hf)
    (h : EStep hf st st') (hInv : Inv hf st) (d : Nat) (hd : d < hf.k)
    (hlock : DownLockedAt hf st d) : DownLockedAt hf st' d := by
  have hUlen := hInv.1
  have hLlen := hInv.2.1
  cases h with
  | down d₀ hd₀ hnb hpos =>
    by_cases hdd : d₀ = d
    · subst hdd
      rcases hlock with ⟨p, hp, heq, hway⟩ | hbd
      · rw [(anyInWay_iff hf st.ehr d₀ (st.lndxs d₀)).mpr ⟨p, hp, heq, hway⟩] at hnb
        cases hnb
      · omega
    · rcases hlock with ⟨p, hp, heq, hway⟩ | hbd
      · left
        refine ⟨p, hp, ?_, ?_⟩
        · show p.getD d 0 =
            (hf.proj d).getD (if d = d₀ then st.lndxs d₀ - 1 else st.lndxs d) 0
          rw [if_neg (fun hc => hdd hc.symm)]
          exact heq
        · refine inWay_mono (k := hf.k) hUlen hLlen (by exact hUlen)
            (by simpa using hLlen) (hwf.1 p hp) ?_ hway
          intro j hj hjd
          by_cases hjj : j = d₀
          · subst hjj
            obtain ⟨h1, h2, _, _, h5⟩ := hInv.2.2 j hj
            refine ⟨le_refl _, ?_⟩
            show (st.ehr.L.set j ((hf.proj j).getD (st.lndxs j - 1) 0)).getD j 0 ≤
              st.ehr.L.getD j 0
            rw [getD_set_self (by omega), h5]
            exact sorted_getD_le (proj_sorted hwf hj) (by omega) (by omega)
          · refine ⟨le_refl _, ?_⟩
            show (st.ehr.L.set d₀ ((hf.proj d₀).getD (st.lndxs d₀ - 1) 0)).getD j 0 ≤
              st.ehr.L.getD j 0
            rw [getD_set_ne (fun hc => hjj hc.symm)]
      · right
        show (if d = d₀ then st.lndxs d₀ - 1 else st.lndxs d) = 0
        rw [if_neg (fun hc => hdd hc.symm)]
        exact hbd
  | up d₀ hd₀ hnb hlt =>
    rcases hlock with ⟨p, hp, heq, hway⟩ | hbd
    · left
      refine ⟨p, hp, heq, ?_⟩
      by_cases hdd : d₀ = d
      · subst hdd
        show HyperRectangle.inWay
          { st.ehr with U := st.ehr.U.set d₀ ((hf.proj d₀).getD (st.undxs d₀ + 1) 0) } p d₀ = true
        rw [inWay_set_U]
        exact hway
      · refine inWay_mono (k := hf.k) hUlen hLlen (by simpa using hUlen)
          (by exact hLlen) (hwf.1 p hp) ?_ hway
        intro j hj hjd
        by_cases hjj : j = d₀
        · subst hjj
          obtain ⟨h1, _, _, h4, _⟩ := hInv.2.2 j hj
          refine ⟨?_, le_refl _⟩
          show st.ehr.U.getD j 0 ≤
            (st.ehr.U.set j ((hf.proj j).getD (st.undxs j + 1) 0)).getD j 0
          rw [getD_set_self (by omega), h4]
          exact sorted_getD_le (proj_sorted hwf hj) (by omega) hlt
        · refine ⟨?_, le_refl _⟩
          show st.ehr.U.getD j 0 ≤
            (st.ehr.U.set d₀ ((hf.proj d₀).getD (st.undxs d₀ + 1) 0)).getD j 0
          rw [getD_set_ne (fun hc => hjj hc.symm)]
    · right
      exact hbd
  | flag b =>
    exact hlock

/-- All invariants, composed along a reachability chain. -/
theorem Reach_props {hf : HoleFinder} {st st' : ExpState} (hwf : HFWf hf)
    (h : Reach hf st st') (hInv : Inv hf st) :
    Inv hf st' ∧
    (st.ehr.isEmpty hf.data = true → st'.ehr.isEmpty hf.data = true) ∧
    (∀ d, d < hf.k →
      st.ehr.U.getD d 0 ≤ st'.ehr.U.getD d 0 ∧
      st'.ehr.L.getD d 0 ≤ st.ehr.L.getD d 0) ∧
    (∀ d, d < hf.k → UpLockedAt hf st d → UpLockedAt hf st' d) ∧
    (∀ d, d < hf.k → DownLockedAt hf st d → DownLockedAt hf st' d) := by
  induction h with
  | refl =>
    exact ⟨hInv, fun he => he, fun d hd => ⟨le_refl _, le_refl _⟩,
      fun d hd hl => hl, fun d hd hl => hl⟩
  | tail hreach hstep ih =>
    obtain ⟨ih1, ih2, ih3, ih4, ih5⟩ := ih
    refine ⟨Inv_step hstep ih1, fun he => empty_step hwf hstep ih1 (ih2 he), ?_, ?_, ?_⟩
    · intro d hd
      have g := growth_step hwf hstep ih1 d hd
      exact ⟨le_trans (ih3 d hd).1 g.1, le_trans g.2 (ih3 d hd).2⟩
    · intro d hd hl
      exact upLocked_step hwf hstep ih1 d hd (ih4 d hd hl)
    · intro d hd hl
      exact downLocked_step hwf hstep ih1 d hd (ih5 d hd hl)

/-! ### Correctness of `_sequentialExpand`'s inner loops

`_sequentialExpand` moves the face index during its `while` loops and only
writes the face value at lock time, so mid-loop states carry a stale bound.
The loop is related to the atomic push relation through the "synced" state
whose bound is written back from the current face index. -/

theorem ExpState.ext' {a b : ExpState} (h1 : a.ehr = b.ehr)
    (h2 : a.undxs = b.undxs) (h3 : a.lndxs = b.lndxs)
    (h4 : a.interior = b.interior) : a = b := by
  cases a
  cases b
  simp only at h1 h2 h3 h4
  rw [h1, h2, h3, h4]

/-- `anyInWay` ignores the upper bound of the queried dimension. -/
theorem anyInWay_set_U (hf : HoleFinder) (r : HyperRectangle) (d t : Nat) (v : ℚ) :
    anyInWay hf { r with U := r.U.set d v } d t = anyInWay hf r d t := by
  unfold anyInWay
  congr 1
  funext p
  exact inWay_set_U r p d v

/-- `anyInWay` ignores the lower bound of the queried dimension. -/
theorem anyInWay_set_L (hf : HoleFinder) (r : HyperRectangle) (d t : Nat) (v : ℚ) :
    anyInWay hf { r with L := r.L.set d v } d t = anyInWay hf r d t := by
  unfold anyInWay
  congr 1
  funext p
  exact inWay_set_L r p d v

/-- The state with `U[d]` written back from the current upper face index. -/
def syncU (hf : HoleFinder) (d : Nat) (st : ExpState) : ExpState :=
  { st with ehr := { st.ehr with
      U := st.ehr.U.set d ((hf.proj d).getD (st.undxs d) 0) } }

/-- The state with `L[d]` written back from the current lower face index. -/
def syncL (hf : HoleFinder) (d : Nat) (st : ExpState) : ExpState :=
  { st with ehr := { st.ehr with
      L := st.ehr.L.set d ((hf.proj d).getD (st.lndxs d) 0) } }

/-- On an invariant-satisfying state the sync is a no-op. -/
theorem syncU_eq_self {hf : HoleFinder} {st : ExpState} {d : Nat}
    (hd : d < hf.k) (hInv : Inv hf st) : syncU hf d st = st := by
  obtain ⟨hU, _, hdim⟩ := hInv
  obtain ⟨_, _, _, h4, _⟩ := hdim d hd
  refine ExpState.ext' ?_ rfl rfl rfl
  show ({ st.ehr with U := st.ehr.U.set d ((hf.proj d).getD (st.undxs d) 0) }
    : HyperRectangle) = st.ehr
  rw [← h4, set_getD_self (by omega)]

/-- On an invariant-satisfying state the sync is a no-op. -/
theorem syncL_eq_self {hf : HoleFinder} {st : ExpState} {d : Nat}
    (hd : d < hf.k) (hInv : Inv hf st) : syncL hf d st = st := by
  obtain ⟨_, hL, hdim⟩ := hInv
  obtain ⟨_, _, _, _, h5⟩ := hdim d hd
  refine ExpState.ext' ?_ rfl rfl rfl
  show ({ st.ehr with L := st.ehr.L.set d ((hf.proj d).getD (st.lndxs d) 0) }
    : HyperRectangle) = st.ehr
  rw [← h5, set_getD_self (by omega)]

/-- Full specification of the upper `while True` loop of `_sequentialExpand`:
given enough fuel it performs a chain of atomic pushes from the synced entry
state, locks the upper face of `d`, and touches nothing else. -/
theorem seqUpLoop_spec {hf : HoleFinder} (hwf : HFWf hf) (d : Nat) (hd : d < hf.k) :
    ∀ fuel st, Inv hf (syncU hf d st) →
      (hf.proj d).length - st.undxs d ≤ fuel →
      Reach hf (syncU hf d st) (seqUpLoop hf d fuel st) ∧
      Inv hf (seqUpLoop hf d fuel st) ∧
      UpLockedAt hf (seqUpLoop hf d fuel st) d ∧
      (seqUpLoop hf d fuel st).lndxs = st.lndxs ∧
      (∀ j, j ≠ d → (seqUpLoop hf d fuel st).undxs j = st.undxs j) ∧
      (seqUpLoop hf d fuel st).interior =
        (st.interior &&
          !decide ((hf.proj d).length - 1 ≤ (seqUpLoop hf d fuel st).undxs d)) := by
  intro fuel
  induction fuel with
  | zero =>
    intro st hInv hfuel
    have hlen : (syncU hf d st).undxs d < (hf.proj d).length := (hInv.2.2 d hd).1
    have : st.undxs d < (hf.proj d).length := hlen
    omega
  | succ fuel ih =>
    intro st hInv hfuel
    by_cases hcond :
        (anyInWay hf st.ehr d (st.undxs d) ||
          decide ((hf.proj d).length - 1 ≤ st.undxs d)) = true
    · -- lock branch
      have hout : seqUpLoop hf d (fuel + 1) st =
          { st with
            ehr := { st.ehr with U := st.ehr.U.set d ((hf.proj d).getD (st.undxs d) 0) }
            interior := st.interior &&
              !decide ((hf.proj d).length - 1 ≤ st.undxs d) } := by
        conv_lhs => rw [seqUpLoop]
        rw [if_pos hcond]
      have hflag : EStep hf (syncU hf d st) (seqUpLoop hf d (fuel + 1) st) := by
        rw [hout]
        exact EStep.flag (syncU hf d st)
          (st.interior && !decide ((hf.proj d).length - 1 ≤ st.undxs d))
      have hreach : Reach hf (syncU hf d st) (seqUpLoop hf d (fuel + 1) st) :=
        Relation.ReflTransGen.single hflag
      have hInv' : Inv hf (seqUpLoop hf d (fuel + 1) st) := Inv_step hflag hInv
      refine ⟨hreach, hInv', ?_, by rw [hout], by intro j hj; rw [hout], by rw [hout]⟩
      · -- the face is locked
        rw [Bool.or_eq_true] at hcond
        rcases hcond with hany | hbd
        · left
          rw [anyInWay_iff] at hany
          obtain ⟨p, hp, heq, hway⟩ := hany
          refine ⟨p, hp, by rw [hout]; exact heq, ?_⟩
          rw [hout]
          show HyperRectangle.inWay
            { st.ehr with U := st.ehr.U.set d ((hf.proj d).getD (st.undxs d) 0) } p d = true
          rw [inWay_set_U]
          exact hway
        · right
          have hlen : (syncU hf d st).undxs d < (hf.proj d).length := (hInv.2.2 d hd).1
          have h1 : st.undxs d < (hf.proj d).length := hlen
          have h2 : (hf.proj d).length - 1 ≤ st.undxs d := of_decide_eq_true hbd
          rw [hout]
          show st.undxs d = (hf.proj d).length - 1
          omega
    · -- push branch
      have hout : seqUpLoop hf d (fuel + 1) st =
          seqUpLoop hf d fuel
            { st with undxs := fun j => if j = d then st.undxs d + 1 else st.undxs j } := by
        conv_lhs => rw [seqUpLoop]
        rw [if_neg hcond]
      rw [Bool.or_eq_true] at hcond
      push_neg at hcond
      have hany : anyInWay hf st.ehr d (st.undxs d) = false := by
        cases hb : anyInWay hf st.ehr d (st.undxs d)
        · rfl
        · exact absurd hb hcond.1
      have hbd : ¬((hf.proj d).length - 1 ≤ st.undxs d) := by
        intro hc
        exact hcond.2 (decide_eq_true hc)
      set st₁ : ExpState :=
        { st with undxs := fun j => if j = d then st.undxs d + 1 else st.undxs j } with hst₁
      have hlen : st.undxs d < (hf.proj d).length := (hInv.2.2 d hd).1
      have hlt : st.undxs d + 1 < (hf.proj d).length := by omega
      have hanyS : anyInWay hf (syncU hf d st).ehr d ((syncU hf d st).undxs d) = false := by
        show anyInWay hf
          { st.ehr with U := st.ehr.U.set d ((hf.proj d).getD (st.undxs d) 0) } d
          (st.undxs d) = false
        rw [anyInWay_set_U]
        exact hany
      have hltS : (syncU hf d st).undxs d + 1 < (hf.proj d).length := hlt
      have hstep0 := EStep.up (syncU hf d st) d hd hanyS hltS
      have hstate : ({ (syncU hf d st) with
          undxs := fun j => if j = d then (syncU hf d st).undxs d + 1
            else (syncU hf d st).undxs j
          ehr := { (syncU hf d st).ehr with
            U := (syncU hf d st).ehr.U.set d
              ((hf.proj d).getD ((syncU hf d st).undxs d + 1) 0) } } : ExpState) =
          syncU hf d st₁ := by
        apply ExpState.ext'
        · show ({ (syncU hf d st).ehr with
              U := (syncU hf d st).ehr.U.set d
                ((hf.proj d).getD ((syncU hf d st).undxs d + 1) 0) } : HyperRectangle) =
            { st₁.ehr with U := st₁.ehr.U.set d ((hf.proj d).getD (st₁.undxs d) 0) }
          have h1 : st₁.undxs d = st.undxs d + 1 := by
            rw [hst₁]
            show (if d = d then st.undxs d + 1 else st.undxs d) = st.undxs d + 1
            rw [if_pos rfl]
          rw [h1]
          show ({ st.ehr with
              U := (st.ehr.U.set d ((hf.proj d).getD (st.undxs d) 0)).set d
                ((hf.proj d).getD (st.undxs d + 1) 0) } : HyperRectangle) =
            { st.ehr with U := st.ehr.U.set d ((hf.proj d).getD (st.undxs d + 1) 0) }
          rw [List.set_set]
        · rfl
        · rfl
        · rfl
      rw [hstate] at hstep0
      have hInv₁ : Inv hf (syncU hf d st₁) := Inv_step hstep0 hInv
      have hfuel₁ : (hf.proj d).length - st₁.undxs d ≤ fuel := by
        have h1 : st₁.undxs d = st.undxs d + 1 := by
          rw [hst₁]
          show (if d = d then st.undxs d + 1 else st.undxs d) = st.undxs d + 1
          rw [if_pos rfl]
        omega
      obtain ⟨r1, r2, r3, r4, r5, r6⟩ := ih st₁ hInv₁ hfuel₁
      rw [hout]
      refine ⟨Relation.ReflTransGen.head hstep0 r1, r2, r3, ?_, ?_, ?_⟩
      · rw [r4]
      · intro j hj
        rw [r5 j hj, hst₁]
        show (if j = d then st.undxs d + 1 else st.undxs j) = st.undxs j
        rw [if_neg hj]
      · exact r6

/-- Full specification of the lower `while True` loop of `_sequentialExpand`. -/
theorem seqDownLoop_spec {hf : HoleFinder} (hwf : HFWf hf) (d : Nat) (hd : d < hf.k) :
    ∀ fuel st, Inv hf (syncL hf d st) →
      st.lndxs d + 1 ≤ fuel →
      Reach hf (syncL hf d st) (seqDownLoop hf d fuel st) ∧
      Inv hf (seqDownLoop hf d fuel st) ∧
      DownLockedAt hf (seqDownLoop hf d fuel st) d ∧
      (seqDownLoop hf d fuel st).undxs = st.undxs ∧
      (∀ j, j ≠ d → (seqDownLoop hf d fuel st).lndxs j = st.lndxs j) ∧
      (seqDownLoop hf d fuel st).interior =
        (st.interior && !decide ((seqDownLoop hf d fuel st).lndxs d ≤ 0)) := by
  intro fuel
  induction fuel with
  | zero =>
    intro st hInv hfuel
    omega
  | succ fuel ih =>
    intro st hInv hfuel
    by_cases hcond :
        (anyInWay hf st.ehr d (st.lndxs d) || decide (st.lndxs d ≤ 0)) = true
    · have hout : seqDownLoop hf d (fuel + 1) st =
          { st with
            ehr := { st.ehr with L := st.ehr.L.set d ((hf.proj d).getD (st.lndxs d) 0) }
            interior := st.interior && !decide (st.lndxs d ≤ 0) } := by
        conv_lhs => rw [seqDownLoop]
        rw [if_pos hcond]
      have hflag : EStep hf (syncL hf d st) (seqDownLoop hf d (fuel + 1) st) := by
        rw [hout]
        exact EStep.flag (syncL hf d st) (st.interior && !decide (st.lndxs d ≤ 0))
      have hreach : Reach hf (syncL hf d st) (seqDownLoop hf d (fuel + 1) st) :=
        Relation.ReflTransGen.single hflag
      have hInv' : Inv hf (seqDownLoop hf d (fuel + 1) st) := Inv_step hflag hInv
      refine ⟨hreach, hInv', ?_, by rw [hout], by intro j hj; rw [hout], by rw [hout]⟩
      · rw [Bool.or_eq_true] at hcond
        rcases hcond with hany | hbd
        · left
          rw [anyInWay_iff] at hany
          obtain ⟨p, hp, heq, hway⟩ := hany
          refine ⟨p, hp, by rw [hout]; exact heq, ?_⟩
          rw [hout]
          show HyperRectangle.inWay
            { st.ehr with L := st.ehr.L.set d ((hf.proj d).getD (st.lndxs d) 0) } p d = true
          rw [inWay_set_L]
          exact hway
        · right
          have h2 : st.lndxs d ≤ 0 := of_decide_eq_true hbd
          rw [hout]
          show st.lndxs d = 0
          omega
    · have hout : seqDownLoop hf d (fuel + 1) st =
          seqDownLoop hf d fuel
            { st with lndxs := fun j => if j = d then st.lndxs d - 1 else st.lndxs j } := by
        conv_lhs => rw [seqDownLoop]
        rw [if_neg hcond]
      rw [Bool.or_eq_true] at hcond
      push_neg at hcond
      have hany : anyInWay hf st.ehr d (st.lndxs d) = false := by
        cases hb : anyInWay hf st.ehr d (st.lndxs d)
        · rfl
        · exact absurd hb hcond.1
      have hbd : ¬(st.lndxs d ≤ 0) := by
        intro hc
        exact hcond.2 (decide_eq_true hc)
      set st₁ : ExpState :=
        { st with lndxs := fun j => if j = d then st.lndxs d - 1 else st.lndxs j } with hst₁
      have hpos : 0 < st.lndxs d := by omega
      have hanyS : anyInWay hf (syncL hf d st).ehr d ((syncL hf d st).lndxs d) = false := by
        show anyInWay hf
          { st.ehr with L := st.ehr.L.set d ((hf.proj d).getD (st.lndxs d) 0) } d
          (st.lndxs d) = false
        rw [anyInWay_set_L]
        exact hany
      have hposS : 0 < (syncL hf d st).lndxs d := hpos
      have hstep0 := EStep.down (syncL hf d st) d hd hanyS hposS
      have hstate : ({ (syncL hf d st) with
          lndxs := fun j => if j = d then (syncL hf d st).lndxs d - 1
            else (syncL hf d st).lndxs j
          ehr := { (syncL hf d st).ehr with
            L := (syncL hf d st).ehr.L.set d
              ((hf.proj d).getD ((syncL hf d st).lndxs d - 1) 0) } } : ExpState) =
          syncL hf d st₁ := by
        apply ExpState.ext'
        · show ({ st.ehr with
              L := (st.ehr.L.set d ((hf.proj d).getD (st.lndxs d) 0)).set d
                ((hf.proj d).getD (st.lndxs d - 1) 0) } : HyperRectangle) =
            { st₁.ehr with L := st₁.ehr.L.set d ((hf.proj d).getD (st₁.lndxs d) 0) }
          have h1 : st₁.lndxs d = st.lndxs d - 1 := by
            rw [hst₁]
            show (if d = d then st.lndxs d - 1 else st.lndxs d) = st.lndxs d - 1
            rw [if_pos rfl]
          rw [h1]
          show ({ st.ehr with
              L := (st.ehr.L.set d ((hf.proj d).getD (st.lndxs d) 0)).set d
                ((hf.proj d).getD (st.lndxs d - 1) 0) } : HyperRectangle) =
            { st.ehr with L := st.ehr.L.set d ((hf.proj d).getD (st.lndxs d - 1) 0) }
          rw [List.set_set]
        · rfl
        · rfl
        · rfl
      rw [hstate] at hstep0
      have hInv₁ : Inv hf (syncL hf d st₁) := Inv_step hstep0 hInv
      have hfuel₁ : st₁.lndxs d + 1 ≤ fuel := by
        have h1 : st₁.lndxs d = st.lndxs d - 1 := by
          rw [hst₁]
          show (if d = d then st.lndxs d - 1 else st.lndxs d) = st.lndxs d - 1
          rw [if_pos rfl]
        omega
      obtain ⟨r1, r2, r3, r4, r5, r6⟩ := ih st₁ hInv₁ hfuel₁
      rw [hout]
      refine ⟨Relation.ReflTransGen.head hstep0 r1, r2, r3, ?_, ?_, ?_⟩
      · rw [r4]
      · intro j hj
        rw [r5 j hj, hst₁]
        show (if j = d then st.lndxs d - 1 else st.lndxs j) = st.lndxs j
        rw [if_neg hj]
      · exact r6

/-! ### The seed state -/

/-- The seed rectangle of `_findRandomMEHR` is empty. -/
theorem makeSeed_isEmpty {hf : HoleFinder} (hwf : HFWf hf) (hn : hf.data ≠ [])
    (hk : 0 < hf.k) (rs : Nat → ℚ) :
    (makeSeed hf rs).isEmpty hf.data = true := by
  rw [HyperRectangle.isEmpty, List.all_eq_true]
  intro p hp
  rw [Bool.not_eq_true']
  by_contra hcon
  have hcont : (makeSeed hf rs).contains p = true := by
    cases hb : (makeSeed hf rs).contains p
    · exact absurd hb hcon
    · rfl
  have hUlen : (makeSeed hf rs).U.length = hf.k := by simp [makeSeed]
  have hLlen : (makeSeed hf rs).L.length = hf.k := by simp [makeSeed]
  have hplen : p.length = hf.k := hwf.1 p hp
  have hin := (contains_iff _ p hf.k hUlen hLlen hplen).mp hcont 0 hk
  have hU0 : (makeSeed hf rs).U.getD 0 0 = (hf.proj 0).getD (seedNdx hf rs 0) 0 :=
    getD_map_range hk
  have hL0 : (makeSeed hf rs).L.getD 0 0 = (hf.proj 0).getD (seedNdx hf rs 0 - 1) 0 :=
    getD_map_range hk
  rw [hU0, hL0] at hin
  have hPlen : 0 < (hf.proj 0).length := by
    rw [hwf.2 0 hk]
    exact projOf_length_pos hn 0
  have hsorted : (hf.proj 0).Sorted (· < ·) := proj_sorted hwf hk
  have hmem : p.getD 0 0 ∈ hf.proj 0 := (proj_mem hwf hk).mpr ⟨p, hp, rfl⟩
  set t := seedNdx hf rs 0 with ht
  by_cases hone : (hf.proj 0).length = 1
  · -- a single projection value: the seed is degenerate, `L[0] = U[0]`
    have ht0 : t = 0 := by
      rw [ht, seedNdx, npClip, hone]
      simp
    rw [ht0] at hin
    simp only [Nat.zero_sub] at hin
    exact absurd (hin.1.trans hin.2) (lt_irrefl _)
  · -- at least two values: `t ∈ [1, len-1]` and `L[0], U[0]` are consecutive
    have hlen2 : 2 ≤ (hf.proj 0).length := by omega
    have ht1 : 1 ≤ t := by
      rw [ht, seedNdx, npClip]
      have : 1 ≤ max (searchsorted (hf.proj 0) (rs 0)) 1 := le_max_right _ _
      omega
    have httop : t < (hf.proj 0).length := by
      rw [ht, seedNdx, npClip]
      have : min (max (searchsorted (hf.proj 0) (rs 0)) 1) ((hf.proj 0).length - 1) ≤
          (hf.proj 0).length - 1 := min_le_right _ _
      omega
    exact no_strict_between hsorted httop (by omega) hmem hin.1 hin.2

/-- C3: every seed produced by the generator on a non-empty dataset (at least
one point and one dimension), for every random draw, has an interior free of
data points. -/
theorem claim_C3_seed_empty (data : List (List ℚ)) (n k : Nat)
    (strategy : Strategy) (interiorOnly : Bool) (rs : Nat → ℚ)
    (hn : data ≠ []) (hk : 0 < k) (hwf : ∀ p ∈ data, p.length = k) :
    (makeSeed (holeFinderOf data n k strategy interiorOnly) rs).isEmpty data = true :=
  makeSeed_isEmpty (holeFinderOf_wf data n k strategy interiorOnly hwf) hn hk rs

/-- Witness for C3 on the dataset `{0, 1} ⊆ ℚ¹` with a concrete draw. -/
theorem claim_C3_witness :
    (makeSeed (holeFinderOf [[0], [1]] 2 1 .sequential false) (fun _ => 1/2)).isEmpty
      [[0], [1]] = true :=
  claim_C3_seed_empty [[0], [1]] 2 1 .sequential false (fun _ => 1/2)
    (by decide) (by decide) (by decide)

/-- The state handed to a strategy by `_findRandomMEHR` satisfies the
expansion invariant. -/
theorem seed_Inv {hf : HoleFinder} (hwf : HFWf hf) (hn : hf.data ≠ [])
    (rs : Nat → ℚ) : Inv hf (seedState hf rs) := by
  refine ⟨by simp [seedState, makeSeed], by simp [seedState, makeSeed], ?_⟩
  intro d hd
  have hPlen : 0 < (hf.proj d).length := by
    rw [hwf.2 d hd]
    exact projOf_length_pos hn d
  have hndx : seedNdx hf rs d =
      min (max (searchsorted (hf.proj d) (rs d)) 1) ((hf.proj d).length - 1) := rfl
  have hU : (seedState hf rs).ehr.U.getD d 0 =
      (hf.proj d).getD (seedNdx hf rs d) 0 := getD_map_range hd
  have hL : (seedState hf rs).ehr.L.getD d 0 =
      (hf.proj d).getD (seedNdx hf rs d - 1) 0 := getD_map_range hd
  refine ⟨?_, ?_, ?_, hU, hL⟩
  · show seedNdx hf rs d < (hf.proj d).length
    rw [hndx]
    have := min_le_right (max (searchsorted (hf.proj d) (rs d)) 1) ((hf.proj d).length - 1)
    omega
  · show seedNdx hf rs d - 1 ≤ seedNdx hf rs d
    omega
  · by_cases hone : (hf.proj d).length = 1
    · right
      exact hone
    · left
      show seedNdx hf rs d - 1 < seedNdx hf rs d
      have h1 : 1 ≤ seedNdx hf rs d := by
        rw [hndx]
        have := le_max_right (searchsorted (hf.proj d) (rs d)) 1
        omega
      omega

/-! ### Full-run specification of `_sequentialExpand` -/

/-- The `for`-loop body of `_sequentialExpand`, folded over the random order:
the result is reachable by pushes, keeps the invariant and locks both faces of
every processed dimension. -/
theorem seqFold_spec {hf : HoleFinder} (hwf : HFWf hf) :
    ∀ (order : List Nat) (st : ExpState), (∀ d ∈ order, d < hf.k) → Inv hf st →
      Reach hf st
        (order.foldl (fun st d =>
          seqDownLoop hf d ((hf.proj d).length + 1)
            (seqUpLoop hf d ((hf.proj d).length + 1) st)) st) ∧
      Inv hf
        (order.foldl (fun st d =>
          seqDownLoop hf d ((hf.proj d).length + 1)
            (seqUpLoop hf d ((hf.proj d).length + 1) st)) st) ∧
      (∀ d ∈ order,
        UpLockedAt hf
          (order.foldl (fun st d =>
            seqDownLoop hf d ((hf.proj d).length + 1)
              (seqUpLoop hf d ((hf.proj d).length + 1) st)) st) d ∧
        DownLockedAt hf
          (order.foldl (fun st d =>
            seqDownLoop hf d ((hf.proj d).length + 1)
              (seqUpLoop hf d ((hf.proj d).length + 1) st)) st) d) := by
  intro order
  induction order with
  | nil =>
    intro st hor hInv
    exact ⟨Relation.ReflTransGen.refl, hInv, fun d hd => absurd hd (List.not_mem_nil d)⟩
  | cons d rest ih =>
    intro st hor hInv
    have hd : d < hf.k := hor d (List.mem_cons_self d rest)
    -- upper loop
    have hsyncU : syncU hf d st = st := syncU_eq_self hd hInv
    have hupfuel : (hf.proj d).length - st.undxs d ≤ (hf.proj d).length + 1 := by omega
    obtain ⟨u1, u2, u3, _, _, _⟩ :=
      seqUpLoop_spec hwf d hd ((hf.proj d).length + 1) st (by rw [hsyncU]; exact hInv)
        hupfuel
    rw [hsyncU] at u1
    set st₁ := seqUpLoop hf d ((hf.proj d).length + 1) st with hst₁
    -- lower loop
    have hsyncL : syncL hf d st₁ = st₁ := syncL_eq_self hd u2
    have hdnfuel : st₁.lndxs d + 1 ≤ (hf.proj d).length + 1 := by
      obtain ⟨b1, b2, _, _, _⟩ := u2.2.2 d hd
      omega
    obtain ⟨v1, v2, v3, _, _, _⟩ :=
      seqDownLoop_spec hwf d hd ((hf.proj d).length + 1) st₁ (by rw [hsyncL]; exact u2)
        hdnfuel
    rw [hsyncL] at v1
    set st₂ := seqDownLoop hf d ((hf.proj d).length + 1) st₁ with hst₂
    -- the upper lock survives the lower loop
    have hup₂ : UpLockedAt hf st₂ d := (Reach_props hwf v1 u2).2.2.2.1 d hd u3
    -- the tail of the fold
    have hrest : ∀ d' ∈ rest, d' < hf.k := fun d' hd' => hor d' (List.mem_cons_of_mem d hd')
    obtain ⟨f1, f2, f3⟩ := ih st₂ hrest v2
    have hfold : (d :: rest).foldl (fun st d =>
        seqDownLoop hf d ((hf.proj d).length + 1)
          (seqUpLoop hf d ((hf.proj d).length + 1) st)) st =
        rest.foldl (fun st d =>
          seqDownLoop hf d ((hf.proj d).length + 1)
            (seqUpLoop hf d ((hf.proj d).length + 1) st)) st₂ := rfl
    rw [hfold]
    refine ⟨Relation.ReflTransGen.trans (Relation.ReflTransGen.trans u1 v1) f1, f2, ?_⟩
    intro d' hd'
    rcases List.mem_cons.mp hd' with rfl | hd'mem
    · have hreach := f1
      exact ⟨(Reach_props hwf hreach v2).2.2.2.1 d' (hor d' hd') hup₂,
        (Reach_props hwf hreach v2).2.2.2.2 d' (hor d' hd') v3⟩
    · exact f3 d' hd'mem

/-! ### Full-run specification of `_evenExpand` -/

/-- The meaning of the `ubound`/`lbound` masks of `_evenExpand`: a set mask
means the corresponding face is locked. -/
def MaskInv (hf : HoleFinder) (ub lb : Nat → Bool) (st : ExpState) : Prop :=
  ∀ d, d < hf.k →
    (ub d = true → UpLockedAt hf st d) ∧ (lb d = true → DownLockedAt hf st d)

/-- One dimension of an `_evenExpand` cycle preserves the invariant and the
meaning of the masks, and only performs atomic pushes. -/
theorem evenStep_spec {hf : HoleFinder} (hwf : HFWf hf) (coin : Bool)
    (ub lb : Nat → Bool) (st : ExpState) (d : Nat) (hd : d < hf.k)
    (hInv : Inv hf st) (hM : MaskInv hf ub lb st) :
    Reach hf st (evenStep hf coin (ub, lb, st) d).2.2 ∧
    Inv hf (evenStep hf coin (ub, lb, st) d).2.2 ∧
    MaskInv hf (evenStep hf coin (ub, lb, st) d).1
      (evenStep hf coin (ub, lb, st) d).2.1 (evenStep hf coin (ub, lb, st) d).2.2 := by
  by_cases hc1 : (coin && !ub d) = true
  · by_cases hc2 : (anyInWay hf st.ehr d (st.undxs d) ||
        decide ((hf.proj d).length - 1 ≤ st.undxs d)) = true
    · -- upper face locks
      have heq : evenStep hf coin (ub, lb, st) d =
          (fun j => if j = d then true else ub j, lb,
            { st with interior :=
                (st.interior && !decide ((hf.proj d).length - 1 ≤ st.undxs d)) }) := by
        simp only [evenStep]
        rw [if_pos hc1, if_pos hc2]
      rw [heq]
      have hlock : UpLockedAt hf st d := by
        rw [Bool.or_eq_true] at hc2
        rcases hc2 with hany | hbd
        · left
          rw [anyInWay_iff] at hany
          exact hany
        · right
          have h1 : st.undxs d < (hf.proj d).length := (hInv.2.2 d hd).1
          have h2 : (hf.proj d).length - 1 ≤ st.undxs d := of_decide_eq_true hbd
          omega
      refine ⟨Relation.ReflTransGen.single (EStep.flag st _), ?_, ?_⟩
      · exact Inv_step (EStep.flag st _) hInv
      · intro d' hd'
        constructor
        · intro hub
          by_cases hdd : d' = d
          · subst hdd
            exact hlock
          · have hub' : (if d' = d then true else ub d') = true := hub
            rw [if_neg hdd] at hub'
            exact (hM d' hd').1 hub'
        · intro hlb
          exact (hM d' hd').2 hlb
    · -- upper face pushes
      have heq : evenStep hf coin (ub, lb, st) d =
          (ub, lb,
            { st with
              undxs := fun j => if j = d then st.undxs d + 1 else st.undxs j
              ehr := { st.ehr with
                U := st.ehr.U.set d ((hf.proj d).getD (st.undxs d + 1) 0) } }) := by
        simp only [evenStep]
        rw [if_pos hc1, if_neg hc2]
      rw [Bool.or_eq_true] at hc2
      push_neg at hc2
      have hany : anyInWay hf st.ehr d (st.undxs d) = false := by
        cases hb : anyInWay hf st.ehr d (st.undxs d)
        · rfl
        · exact absurd hb hc2.1
      have hlt : st.undxs d + 1 < (hf.proj d).length := by
        have h1 : st.undxs d < (hf.proj d).length := (hInv.2.2 d hd).1
        have h2 : ¬((hf.proj d).length - 1 ≤ st.undxs d) := by
          intro hc
          exact hc2.2 (decide_eq_true hc)
        omega
      have hstep := EStep.up st d hd hany hlt
      rw [heq]
      refine ⟨Relation.ReflTransGen.single hstep, Inv_step hstep hInv, ?_⟩
      intro d' hd'
      exact ⟨fun hub => upLocked_step hwf hstep hInv d' hd' ((hM d' hd').1 hub),
        fun hlb => downLocked_step hwf hstep hInv d' hd' ((hM d' hd').2 hlb)⟩
  · by_cases hc3 : (!coin && !lb d) = true
    · by_cases hc2 : (anyInWay hf st.ehr d (st.lndxs d) ||
          decide (st.lndxs d ≤ 0)) = true
      · -- lower face locks
        have heq : evenStep hf coin (ub, lb, st) d =
            (ub, fun j => if j = d then true else lb j,
              { st with interior := st.interior && !decide (st.lndxs d ≤ 0) }) := by
          simp only [evenStep]
          rw [if_neg hc1, if_pos hc3, if_pos hc2]
        rw [heq]
        have hlock : DownLockedAt hf st d := by
          rw [Bool.or_eq_true] at hc2
          rcases hc2 with hany | hbd
          · left
            rw [anyInWay_iff] at hany
            exact hany
          · right
            have h2 : st.lndxs d ≤ 0 := of_decide_eq_true hbd
            omega
        refine ⟨Relation.ReflTransGen.single (EStep.flag st _), ?_, ?_⟩
        · exact Inv_step (EStep.flag st _) hInv
        · intro d' hd'
          constructor
          · intro hub
            exact (hM d' hd').1 hub
          · intro hlb
            by_cases hdd : d' = d
            · subst hdd
              exact hlock
            · have hlb' : (if d' = d then true else lb d') = true := hlb
              rw [if_neg hdd] at hlb'
              exact (hM d' hd').2 hlb'
      · -- lower face pushes
        have heq : evenStep hf coin (ub, lb, st) d =
            (ub, lb,
              { st with
                lndxs := fun j => if j = d then st.lndxs d - 1 else st.lndxs j
                ehr := { st.ehr with
                  L := st.ehr.L.set d ((hf.proj d).getD (st.lndxs d - 1) 0) } }) := by
          simp only [evenStep]
          rw [if_neg hc1, if_pos hc3, if_neg hc2]
        rw [Bool.or_eq_true] at hc2
        push_neg at hc2
        have hany : anyInWay hf st.ehr d (st.lndxs d) = false := by
          cases hb : anyInWay hf st.ehr d (st.lndxs d)
          · rfl
          · exact absurd hb hc2.1
        have hpos : 0 < st.lndxs d := by
          have h2 : ¬(st.lndxs d ≤ 0) := by
            intro hc
            exact hc2.2 (decide_eq_true hc)
          omega
        have hstep := EStep.down st d hd hany hpos
        rw [heq]
        refine ⟨Relation.ReflTransGen.single hstep, Inv_step hstep hInv, ?_⟩
        intro d' hd'
        exact ⟨fun hub => upLocked_step hwf hstep hInv d' hd' ((hM d' hd').1 hub),
          fun hlb => downLocked_step hwf hstep hInv d' hd' ((hM d' hd').2 hlb)⟩
    · -- fall-through
      have heq : evenStep hf coin (ub, lb, st) d = (ub, lb, st) := by
        simp only [evenStep]
        rw [if_neg hc1, if_neg hc3]
      rw [heq]
      exact ⟨Relation.ReflTransGen.refl, hInv, hM⟩

/-- A full `_evenExpand` cycle preserves the invariants. -/
theorem evenCycle_spec {hf : HoleFinder} (hwf : HFWf hf) (coins : Nat → Bool) :
    ∀ (order : List Nat) (t : Nat) (ub lb : Nat → Bool) (st : ExpState),
      (∀ d ∈ order, d < hf.k) → Inv hf st → MaskInv hf ub lb st →
      ∃ ub' lb' st', evenCycle hf coins order t (ub, lb, st) = (ub', lb', st') ∧
        Reach hf st st' ∧ Inv hf st' ∧ MaskInv hf ub' lb' st' := by
  have main : ∀ (order : List Nat) (t : Nat) (ub lb : Nat → Bool) (st : ExpState),
      (∀ d ∈ order, d < hf.k) → Inv hf st → MaskInv hf ub lb st →
      ∃ t' ub' lb' st',
        order.foldl
          (fun (acc : Nat × (Nat → Bool) × (Nat → Bool) × ExpState) d =>
            (acc.1 + 1, evenStep hf (coins acc.1) acc.2 d)) (t, ub, lb, st) =
          (t', ub', lb', st') ∧
        Reach hf st st' ∧ Inv hf st' ∧ MaskInv hf ub' lb' st' := by
    intro order
    induction order with
    | nil =>
      intro t ub lb st hor hInv hM
      exact ⟨t, ub, lb, st, rfl, Relation.ReflTransGen.refl, hInv, hM⟩
    | cons d rest ih =>
      intro t ub lb st hor hInv hM
      have hd : d < hf.k := hor d (List.mem_cons_self d rest)
      obtain ⟨s1, s2, s3⟩ := evenStep_spec hwf (coins t) ub lb st d hd hInv hM
      rcases he : evenStep hf (coins t) (ub, lb, st) d with ⟨ub₁, lb₁, st₁⟩
      rw [he] at s1 s2 s3
      have hrest : ∀ d' ∈ rest, d' < hf.k :=
        fun d' hd' => hor d' (List.mem_cons_of_mem d hd')
      obtain ⟨t', ub', lb', st', f0, f1, f2, f3⟩ := ih (t + 1) ub₁ lb₁ st₁ hrest s2 s3
      refine ⟨t', ub', lb', st', ?_, Relation.ReflTransGen.trans s1 f1, f2, f3⟩
      show ((d :: rest).foldl
        (fun (acc : Nat × (Nat → Bool) × (Nat → Bool) × ExpState) d =>
          (acc.1 + 1, evenStep hf (coins acc.1) acc.2 d)) (t, ub, lb, st)) =
        (t', ub', lb', st')
      rw [List.foldl_cons]
      show (rest.foldl
        (fun (acc : Nat × (Nat → Bool) × (Nat → Bool) × ExpState) d =>
          (acc.1 + 1, evenStep hf (coins acc.1) acc.2 d))
        (t + 1, evenStep hf (coins t) (ub, lb, st) d)) = (t', ub', lb', st')
      rw [he]
      exact f0
  intro order t ub lb st hor hInv hM
  obtain ⟨t', ub', lb', st', f0, f1, f2, f3⟩ := main order t ub lb st hor hInv hM
  refine ⟨ub', lb', st', ?_, f1, f2, f3⟩
  rw [evenCycle, f0]

/-- Full-run specification of `_evenExpand`'s outer loop: any returned pair is
the rectangle and flag of a reachable invariant state in which either every
face is locked, or (under interior-only) the state is no longer interior. -/
theorem evenLoop_spec {hf : HoleFinder} (hwf : HFWf hf) (order : List Nat)
    (coins : Nat → Bool) (horder : ∀ d ∈ order, d < hf.k) :
    ∀ (fuel t : Nat) (ub lb : Nat → Bool) (st : ExpState),
      Inv hf st → MaskInv hf ub lb st →
      ∀ r b, evenLoop hf order coins fuel t (ub, lb, st) = some (r, b) →
      ∃ stf, Reach hf st stf ∧ Inv hf stf ∧ r = stf.ehr ∧ b = stf.interior ∧
        ((∀ d, d < hf.k → UpLockedAt hf stf d ∧ DownLockedAt hf stf d) ∨
          (stf.interior = false ∧ hf.interiorOnly = true)) := by
  intro fuel
  induction fuel with
  | zero =>
    intro t ub lb st hInv hM r b hsome
    exact absurd hsome (by simp [evenLoop])
  | succ fuel ih =>
    intro t ub lb st hInv hM r b hsome
    by_cases hcond : (!((List.range hf.k).all lb && (List.range hf.k).all ub) &&
        (st.interior || !hf.interiorOnly)) = true
    · -- another cycle runs
      have hunf : evenLoop hf order coins (fuel + 1) t (ub, lb, st) =
          evenLoop hf order coins fuel (t + order.length)
            (evenCycle hf coins order t (ub, lb, st)) := by
        conv_lhs => rw [evenLoop]
        rw [if_pos hcond]
      obtain ⟨ub', lb', st', c0, c1, c2, c3⟩ :=
        evenCycle_spec hwf coins order t ub lb st horder hInv hM
      rw [hunf, c0] at hsome
      obtain ⟨stf, r1, r2, r3, r4, r5⟩ := ih (t + order.length) ub' lb' st' c2 c3 r b hsome
      exact ⟨stf, Relation.ReflTransGen.trans c1 r1, r2, r3, r4, r5⟩
    · -- the loop exits
      have hunf : evenLoop hf order coins (fuel + 1) t (ub, lb, st) =
          some (st.ehr, st.interior) := by
        conv_lhs => rw [evenLoop]
        rw [if_neg hcond]
      rw [hunf] at hsome
      obtain ⟨hr, hb⟩ := Prod.mk.injEq _ _ _ _ ▸ Option.some.injEq _ _ ▸ hsome
      refine ⟨st, Relation.ReflTransGen.refl, hInv, by rw [← hr], by rw [← hb], ?_⟩
      rw [Bool.and_eq_true] at hcond
      push_neg at hcond
      by_cases hall : ((List.range hf.k).all lb && (List.range hf.k).all ub) = true
      · left
        rw [Bool.and_eq_true, List.all_eq_true, List.all_eq_true] at hall
        intro d hd
        have hlb : lb d = true := hall.1 d (List.mem_range.mpr hd)
        have hub : ub d = true := hall.2 d (List.mem_range.mpr hd)
        exact ⟨(hM d hd).1 hub, (hM d hd).2 hlb⟩
      · right
        have h1 : (!((List.range hf.k).all lb && (List.range hf.k).all ub)) = true := by
          rw [Bool.not_eq_true']
          cases hb' : ((List.range hf.k).all lb && (List.range hf.k).all ub)
          · rfl
          · exact absurd hb' hall
        have hny := hcond h1
        have h2 : (st.interior || !hf.interiorOnly) = false := by
          cases hb' : (st.interior || !hf.interiorOnly)
          · rfl
          · exact absurd hb' hny
        rw [Bool.or_eq_false_iff] at h2
        refine ⟨h2.1, ?_⟩
        have := h2.2
        rwa [Bool.not_eq_false'] at this

/-! ### Full-run specification of `_randomExpand` -/

/-- Removing position `r` from a list (`directions[:r] + directions[r+1:]`)
loses only the element at position `r`. -/
theorem mem_removed {α : Type} {l : List α} {r : Nat} (hr : r < l.length)
    {x : α} (hx : x ∈ l) :
    x ∈ l.take r ++ l.drop (r + 1) ∨ x = l[r] := by
  rw [← List.take_append_drop r l] at hx
  rcases List.mem_append.mp hx with h | h
  · exact Or.inl (List.mem_append.mpr (Or.inl h))
  · rw [List.drop_eq_getElem_cons hr] at h
    rcases List.mem_cons.mp h with h | h
    · exact Or.inr h
    · exact Or.inl (List.mem_append.mpr (Or.inr h))

/-- The meaning of the `directions` multiset of `_randomExpand`: a removed
pair is a locked face. -/
def DirInv (hf : HoleFinder) (dirs : List (Nat × Bool)) (st : ExpState) : Prop :=
  ∀ d, d < hf.k →
    ((d, true) ∉ dirs → UpLockedAt hf st d) ∧
    ((d, false) ∉ dirs → DownLockedAt hf st d)

/-- An upward burst of `_randomExpand` performs pushes, and reports `true`
exactly with the face locked. -/
theorem randUpBurst_spec {hf : HoleFinder} (hwf : HFWf hf) (d : Nat) (hd : d < hf.k) :
    ∀ (steps : Nat) (st : ExpState), Inv hf st →
      Reach hf st (randUpBurst hf d steps st).1 ∧
      Inv hf (randUpBurst hf d steps st).1 ∧
      ((randUpBurst hf d steps st).2 = true →
        UpLockedAt hf (randUpBurst hf d steps st).1 d) := by
  intro steps
  induction steps with
  | zero =>
    intro st hInv
    exact ⟨Relation.ReflTransGen.refl, hInv, fun h => absurd h (by simp [randUpBurst])⟩
  | succ steps ih =>
    intro st hInv
    by_cases hcond : (anyInWay hf st.ehr d (st.undxs d) ||
        decide ((hf.proj d).length - 1 ≤ st.undxs d)) = true
    · have hunf : randUpBurst hf d (steps + 1) st =
          ({ st with interior :=
            (st.interior && !decide ((hf.proj d).length - 1 ≤ st.undxs d)) }, true) := by
        conv_lhs => rw [randUpBurst]
        rw [if_pos hcond]
      rw [hunf]
      have hflag := @EStep.flag hf st
        (st.interior && !decide ((hf.proj d).length - 1 ≤ st.undxs d))
      refine ⟨Relation.ReflTransGen.single hflag, Inv_step hflag hInv, fun _ => ?_⟩
      rw [Bool.or_eq_true] at hcond
      rcases hcond with hany | hbd
      · left
        rw [anyInWay_iff] at hany
        exact hany
      · right
        have h1 : st.undxs d < (hf.proj d).length := (hInv.2.2 d hd).1
        have h2 : (hf.proj d).length - 1 ≤ st.undxs d := of_decide_eq_true hbd
        show st.undxs d = (hf.proj d).length - 1
        omega
    · have hunf : randUpBurst hf d (steps + 1) st =
          randUpBurst hf d steps
            { st with
              undxs := fun j => if j = d then st.undxs d + 1 else st.undxs j
              ehr := { st.ehr with
                U := st.ehr.U.set d ((hf.proj d).getD (st.undxs d + 1) 0) } } := by
        conv_lhs => rw [randUpBurst]
        rw [if_neg hcond]
      rw [Bool.or_eq_true] at hcond
      push_neg at hcond
      have hany : anyInWay hf st.ehr d (st.undxs d) = false := by
        cases hb : anyInWay hf st.ehr d (st.undxs d)
        · rfl
        · exact absurd hb hcond.1
      have hlt : st.undxs d + 1 < (hf.proj d).length := by
        have h1 : st.undxs d < (hf.proj d).length := (hInv.2.2 d hd).1
        have h2 : ¬((hf.proj d).length - 1 ≤ st.undxs d) := by
          intro hc
          exact hcond.2 (decide_eq_true hc)
        omega
      have hstep := EStep.up st d hd hany hlt
      rw [hunf]
      obtain ⟨r1, r2, r3⟩ := ih _ (Inv_step hstep hInv)
      exact ⟨Relation.ReflTransGen.head hstep r1, r2, r3⟩

/-- A downward burst of `_randomExpand`. -/
theorem randDownBurst_spec {hf : HoleFinder} (hwf : HFWf hf) (d : Nat) (hd : d < hf.k) :
    ∀ (steps : Nat) (st : ExpState), Inv hf st →
      Reach hf st (randDownBurst hf d steps st).1 ∧
      Inv hf (randDownBurst hf d steps st).1 ∧
      ((randDownBurst hf d steps st).2 = true →
        DownLockedAt hf (randDownBurst hf d steps st).1 d) := by
  intro steps
  induction steps with
  | zero =>
    intro st hInv
    exact ⟨Relation.ReflTransGen.refl, hInv, fun h => absurd h (by simp [randDownBurst])⟩
  | succ steps ih =>
    intro st hInv
    by_cases hcond : (anyInWay hf st.ehr d (st.lndxs d) ||
        decide (st.lndxs d ≤ 0)) = true
    · have hunf : randDownBurst hf d (steps + 1) st =
          ({ st with interior := (st.interior && !decide (st.lndxs d ≤ 0)) }, true) := by
        conv_lhs => rw [randDownBurst]
        rw [if_pos hcond]
      rw [hunf]
      have hflag := @EStep.flag hf st (st.interior && !decide (st.lndxs d ≤ 0))
      refine ⟨Relation.ReflTransGen.single hflag, Inv_step hflag hInv, fun _ => ?_⟩
      rw [Bool.or_eq_true] at hcond
      rcases hcond with hany | hbd
      · left
        rw [anyInWay_iff] at hany
        exact hany
      · right
        have h2 : st.lndxs d ≤ 0 := of_decide_eq_true hbd
        show st.lndxs d = 0
        omega
    · have hunf : randDownBurst hf d (steps + 1) st =
          randDownBurst hf d steps
            { st with
              lndxs := fun j => if j = d then st.lndxs d - 1 else st.lndxs j
              ehr := { st.ehr with
                L := st.ehr.L.set d ((hf.proj d).getD (st.lndxs d - 1) 0) } } := by
        conv_lhs => rw [randDownBurst]
        rw [if_neg hcond]
      rw [Bool.or_eq_true] at hcond
      push_neg at hcond
      have hany : anyInWay hf st.ehr d (st.lndxs d) = false := by
        cases hb : anyInWay hf st.ehr d (st.lndxs d)
        · rfl
        · exact absurd hb hcond.1
      have hpos : 0 < st.lndxs d := by
        have h2 : ¬(st.lndxs d ≤ 0) := by
          intro hc
          exact hcond.2 (decide_eq_true hc)
        omega
      have hstep := EStep.down st d hd hany hpos
      rw [hunf]
      obtain ⟨r1, r2, r3⟩ := ih _ (Inv_step hstep hInv)
      exact ⟨Relation.ReflTransGen.head hstep r1, r2, r3⟩

/-- Full-run specification of `_randomExpand`'s outer loop. -/
theorem randLoop_spec {hf : HoleFinder} (hwf : HFWf hf) (rs ss : Nat → Nat) :
    ∀ (fuel i : Nat) (dirs : List (Nat × Bool)) (st : ExpState),
      Inv hf st → DirInv hf dirs st → (∀ dc ∈ dirs, dc.1 < hf.k) →
      ∀ r b, randLoop hf rs ss fuel i dirs st = some (r, b) →
      ∃ stf, Reach hf st stf ∧ Inv hf stf ∧ r = stf.ehr ∧ b = stf.interior ∧
        ((∀ d, d < hf.k → UpLockedAt hf stf d ∧ DownLockedAt hf stf d) ∨
          (stf.interior = false ∧ hf.interiorOnly = true)) := by
  intro fuel
  induction fuel with
  | zero =>
    intro i dirs st hInv hD hB r b hsome
    exact absurd hsome (by simp [randLoop])
  | succ fuel ih =>
    intro i dirs st hInv hD hB r b hsome
    by_cases hcond : (!dirs.isEmpty && (st.interior || !hf.interiorOnly)) = true
    · -- an iteration runs
      have hne : dirs ≠ [] := by
        rw [Bool.and_eq_true] at hcond
        intro hnil
        rw [hnil] at hcond
        simp at hcond
      have hlen : 0 < dirs.length := List.length_pos.mpr hne
      have hr : rs i % dirs.length < dirs.length := Nat.mod_lt _ hlen
      set dc := dirs.getD (rs i % dirs.length) (0, false) with hdc
      have hdcelem : dc = dirs[rs i % dirs.length] := by
        rw [hdc, List.getD_eq_getElem _ _ hr]
      have hdcmem : dc ∈ dirs := by
        rw [hdcelem]
        exact List.getElem_mem hr
      have hdk : dc.1 < hf.k := hB dc hdcmem
      have hunf : randLoop hf rs ss (fuel + 1) i dirs st =
          randLoop hf rs ss fuel (i + 1)
            (if (if dc.2 then randUpBurst hf dc.1 (ss i + 1) st
                else randDownBurst hf dc.1 (ss i + 1) st).2 then
              dirs.take (rs i % dirs.length) ++ dirs.drop (rs i % dirs.length + 1)
            else dirs)
            (if dc.2 then randUpBurst hf dc.1 (ss i + 1) st
              else randDownBurst hf dc.1 (ss i + 1) st).1 := by
        conv_lhs => rw [randLoop]
        rw [if_pos hcond]
      set res := if dc.2 then randUpBurst hf dc.1 (ss i + 1) st
        else randDownBurst hf dc.1 (ss i + 1) st with hres
      have hspec : Reach hf st res.1 ∧ Inv hf res.1 ∧
          (res.2 = true →
            (dc.2 = true → UpLockedAt hf res.1 dc.1) ∧
            (dc.2 = false → DownLockedAt hf res.1 dc.1)) := by
        rw [hres]
        cases hb2 : dc.2
        · obtain ⟨a1, a2, a3⟩ := randDownBurst_spec hwf dc.1 hdk (ss i + 1) st hInv
          rw [if_neg Bool.false_ne_true]
          exact ⟨a1, a2, fun hl => ⟨fun hc => Bool.noConfusion hc, fun _ => a3 hl⟩⟩
        · obtain ⟨a1, a2, a3⟩ := randUpBurst_spec hwf dc.1 hdk (ss i + 1) st hInv
          rw [if_pos rfl]
          exact ⟨a1, a2, fun hl => ⟨fun _ => a3 hl, fun hc => Bool.noConfusion hc⟩⟩
      obtain ⟨b1, b2, b3⟩ := hspec
      set dirs' := if res.2 then
          dirs.take (rs i % dirs.length) ++ dirs.drop (rs i % dirs.length + 1)
        else dirs with hdirs'
      have hsub : ∀ x, x ∈ dirs' → x ∈ dirs := by
        intro x hx
        rw [hdirs'] at hx
        by_cases hb2 : res.2 = true
        · rw [if_pos hb2] at hx
          rcases List.mem_append.mp hx with h | h
          · exact List.take_subset _ _ h
          · exact List.drop_subset _ _ h
        · rw [if_neg hb2] at hx
          exact hx
      have hD' : DirInv hf dirs' res.1 := by
        intro d hd
        constructor
        · intro hnot
          by_cases hin : (d, true) ∈ dirs
          · -- it must be the removed pair, i.e. the burst face, which locked
            by_cases hb2 : res.2 = true
            · rcases mem_removed hr hin with hmem' | hmem'
              · exfalso
                apply hnot
                rw [hdirs', if_pos hb2]
                exact hmem'
              · have : dc = (d, true) := by rw [hdcelem, ← hmem']
                have h1 := (b3 hb2).1
                rw [this] at h1
                exact h1 rfl
            · exfalso
              apply hnot
              rw [hdirs', if_neg hb2]
              exact hin
          · exact (Reach_props hwf b1 hInv).2.2.2.1 d hd ((hD d hd).1 hin)
        · intro hnot
          by_cases hin : (d, false) ∈ dirs
          · by_cases hb2 : res.2 = true
            · rcases mem_removed hr hin with hmem' | hmem'
              · exfalso
                apply hnot
                rw [hdirs', if_pos hb2]
                exact hmem'
              · have : dc = (d, false) := by rw [hdcelem, ← hmem']
                have h1 := (b3 hb2).2
                rw [this] at h1
                exact h1 rfl
            · exfalso
              apply hnot
              rw [hdirs', if_neg hb2]
              exact hin
          · exact (Reach_props hwf b1 hInv).2.2.2.2 d hd ((hD d hd).2 hin)
      have hB' : ∀ dc' ∈ dirs', dc'.1 < hf.k := fun dc' hdc' => hB dc' (hsub dc' hdc')
      rw [hunf] at hsome
      obtain ⟨stf, r1, r2, r3, r4, r5⟩ := ih (i + 1) dirs' res.1 b2 hD' hB' r b hsome
      exact ⟨stf, Relation.ReflTransGen.trans b1 r1, r2, r3, r4, r5⟩
    · -- the loop exits
      have hunf : randLoop hf rs ss (fuel + 1) i dirs st =
          some (st.ehr, st.interior) := by
        conv_lhs => rw [randLoop]
        rw [if_neg hcond]
      rw [hunf] at hsome
      obtain ⟨hr', hb'⟩ := Prod.mk.injEq _ _ _ _ ▸ Option.some.injEq _ _ ▸ hsome
      refine ⟨st, Relation.ReflTransGen.refl, hInv, by rw [← hr'], by rw [← hb'], ?_⟩
      rw [Bool.and_eq_true] at hcond
      push_neg at hcond
      by_cases hemp : (!dirs.isEmpty) = true
      · right
        have hny := hcond hemp
        have h2 : (st.interior || !hf.interiorOnly) = false := by
          cases hb2 : (st.interior || !hf.interiorOnly)
          · rfl
          · exact absurd hb2 hny
        rw [Bool.or_eq_false_iff] at h2
        refine ⟨h2.1, ?_⟩
        have := h2.2
        rwa [Bool.not_eq_false'] at this
      · left
        have hnil : dirs = [] := by
          have hie : dirs.isEmpty = true := by
            cases hb2 : dirs.isEmpty
            · exact absurd (by rw [hb2]; rfl : (!dirs.isEmpty) = true) hemp
            · rfl
          exact List.isEmpty_iff.mp hie
        intro d hd
        rw [hnil] at hD
        exact ⟨(hD d hd).1 (List.not_mem_nil _), (hD d hd).2 (List.not_mem_nil _)⟩

/-- Initial mask state of `_evenExpand` satisfies the mask invariant. -/
theorem maskInv_init (hf : HoleFinder) (st : ExpState) :
    MaskInv hf (fun _ => false) (fun _ => false) st := by
  intro d hd
  exact ⟨fun h => Bool.noConfusion h, fun h => Bool.noConfusion h⟩

/-- Initial directions of `_randomExpand` contain every pair. -/
theorem dirInv_init (hf : HoleFinder) (st : ExpState) :
    DirInv hf ((List.range hf.k).flatMap (fun d => [(d, false), (d, true)])) st := by
  intro d hd
  constructor
  · intro hnot
    exact absurd (List.mem_flatMap.mpr ⟨d, List.mem_range.mpr hd, by simp⟩) hnot
  · intro hnot
    exact absurd (List.mem_flatMap.mpr ⟨d, List.mem_range.mpr hd, by simp⟩) hnot

/-- Initial directions of `_randomExpand` mention only real dimensions. -/
theorem dirBound_init (hf : HoleFinder) :
    ∀ dc ∈ (List.range hf.k).flatMap (fun d => [(d, false), (d, true)]),
      dc.1 < hf.k := by
  intro dc hdc
  obtain ⟨a, ha, hmem⟩ := List.mem_flatMap.mp hdc
  have hak : a < hf.k := List.mem_range.mp ha
  rcases List.mem_cons.mp hmem with h | h
  · rw [h]
    exact hak
  · rcases List.mem_cons.mp h with h2 | h2
    · rw [h2]
      exact hak
    · exact absurd h2 (List.not_mem_nil _)

/-- C1: for every strategy (sequential, even, random) and every seed produced
by the generator on a non-empty dataset, the rectangle returned by the
expansion procedure has an interior free of data points. -/
theorem claim_C1_expansion_empty (data : List (List ℚ)) (n k : Nat)
    (strategy : Strategy) (interiorOnly : Bool) (rs : Nat → ℚ)
    (hn : data ≠ []) (hk : 0 < k) (hwfd : ∀ p ∈ data, p.length = k) :
    (∀ order, order.Perm (List.range k) →
      (sequentialExpand (holeFinderOf data n k strategy interiorOnly) order
        (seedState (holeFinderOf data n k strategy interiorOnly) rs)).1.isEmpty
        data = true) ∧
    (∀ order coins fuel r b, order.Perm (List.range k) →
      evenExpand (holeFinderOf data n k strategy interiorOnly) order coins fuel
        (seedState (holeFinderOf data n k strategy interiorOnly) rs) = some (r, b) →
      r.isEmpty data = true) ∧
    (∀ rsN ss fuel r b,
      randomExpand (holeFinderOf data n k strategy interiorOnly) rsN ss fuel
        (seedState (holeFinderOf data n k strategy interiorOnly) rs) = some (r, b) →
      r.isEmpty data = true) := by
  set hf := holeFinderOf data n k strategy interiorOnly with hhf
  have hwf : HFWf hf := holeFinderOf_wf data n k strategy interiorOnly hwfd
  have hn' : hf.data ≠ [] := hn
  have hInv : Inv hf (seedState hf rs) := seed_Inv hwf hn' rs
  have hempty : (seedState hf rs).ehr.isEmpty hf.data = true :=
    makeSeed_isEmpty hwf hn' (by show 0 < k; omega) rs
  refine ⟨?_, ?_, ?_⟩
  · intro order hperm
    have horder : ∀ d ∈ order, d < hf.k := by
      intro d hd
      exact List.mem_range.mp (hperm.mem_iff.mp hd)
    obtain ⟨f1, f2, f3⟩ := seqFold_spec hwf order (seedState hf rs) horder hInv
    exact (Reach_props hwf f1 hInv).2.1 hempty
  · intro order coins fuel r b hperm hsome
    have horder : ∀ d ∈ order, d < hf.k := by
      intro d hd
      exact List.mem_range.mp (hperm.mem_iff.mp hd)
    obtain ⟨stf, r1, r2, r3, r4, r5⟩ :=
      evenLoop_spec hwf order coins horder fuel 0 (fun _ => false) (fun _ => false)
        (seedState hf rs) hInv (maskInv_init hf _) r b hsome
    rw [r3]
    exact (Reach_props hwf r1 hInv).2.1 hempty
  · intro rsN ss fuel r b hsome
    obtain ⟨stf, r1, r2, r3, r4, r5⟩ :=
      randLoop_spec hwf rsN ss fuel 0 _ (seedState hf rs) hInv
        (dirInv_init hf _) (dirBound_init hf) r b hsome
    rw [r3]
    exact (Reach_props hwf r1 hInv).2.1 hempty

/-- C10: for every strategy and every seed, the rectangle returned by the
expansion procedure contains the seed rectangle componentwise — expansion
never moves a face inward. -/
theorem claim_C10_expansion_contains_seed (data : List (List ℚ)) (n k : Nat)
    (strategy : Strategy) (interiorOnly : Bool) (rs : Nat → ℚ)
    (hn : data ≠ []) (hk : 0 < k) (hwfd : ∀ p ∈ data, p.length = k) :
    (∀ order, order.Perm (List.range k) → ∀ d, d < k →
      (sequentialExpand (holeFinderOf data n k strategy interiorOnly) order
        (seedState (holeFinderOf data n k strategy interiorOnly) rs)).1.L.getD d 0 ≤
        (makeSeed (holeFinderOf data n k strategy interiorOnly) rs).L.getD d 0 ∧
      (makeSeed (holeFinderOf data n k strategy interiorOnly) rs).U.getD d 0 ≤
        (sequentialExpand (holeFinderOf data n k strategy interiorOnly) order
          (seedState (holeFinderOf data n k strategy interiorOnly) rs)).1.U.getD d 0) ∧
    (∀ order coins fuel r b, order.Perm (List.range k) →
      evenExpand (holeFinderOf data n k strategy interiorOnly) order coins fuel
        (seedState (holeFinderOf data n k strategy interiorOnly) rs) = some (r, b) →
      ∀ d, d < k →
        r.L.getD d 0 ≤ (makeSeed (holeFinderOf data n k strategy interiorOnly) rs).L.getD d 0 ∧
        (makeSeed (holeFinderOf data n k strategy interiorOnly) rs).U.getD d 0 ≤
          r.U.getD d 0) ∧
    (∀ rsN ss fuel r b,
      randomExpand (holeFinderOf data n k strategy interiorOnly) rsN ss fuel
        (seedState (holeFinderOf data n k strategy interiorOnly) rs) = some (r, b) →
      ∀ d, d < k →
        r.L.getD d 0 ≤ (makeSeed (holeFinderOf data n k strategy interiorOnly) rs).L.getD d 0 ∧
        (makeSeed (holeFinderOf data n k strategy interiorOnly) rs).U.getD d 0 ≤
          r.U.getD d 0) := by
  set hf := holeFinderOf data n k strategy interiorOnly with hhf
  have hwf : HFWf hf := holeFinderOf_wf data n k strategy interiorOnly hwfd
  have hn' : hf.data ≠ [] := hn
  have hInv : Inv hf (seedState hf rs) := seed_Inv hwf hn' rs
  refine ⟨?_, ?_, ?_⟩
  · intro order hperm d hd
    have horder : ∀ d' ∈ order, d' < hf.k := by
      intro d' hd'
      exact List.mem_range.mp (hperm.mem_iff.mp hd')
    obtain ⟨f1, f2, f3⟩ := seqFold_spec hwf order (seedState hf rs) horder hInv
    have := (Reach_props hwf f1 hInv).2.2.1 d hd
    exact ⟨this.2, this.1⟩
  · intro order coins fuel r b hperm hsome d hd
    have horder : ∀ d' ∈ order, d' < hf.k := by
      intro d' hd'
      exact List.mem_range.mp (hperm.mem_iff.mp hd')
    obtain ⟨stf, r1, r2, r3, r4, r5⟩ :=
      evenLoop_spec hwf order coins horder fuel 0 (fun _ => false) (fun _ => false)
        (seedState hf rs) hInv (maskInv_init hf _) r b hsome
    rw [r3]
    have := (Reach_props hwf r1 hInv).2.2.1 d hd
    exact ⟨this.2, this.1⟩
  · intro rsN ss fuel r b hsome d hd
    obtain ⟨stf, r1, r2, r3, r4, r5⟩ :=
      randLoop_spec hwf rsN ss fuel 0 _ (seedState hf rs) hInv
        (dirInv_init hf _) (dirBound_init hf) r b hsome
    rw [r3]
    have := (Reach_props hwf r1 hInv).2.2.1 d hd
    exact ⟨this.2, this.1⟩

/-- Witness for C1 on the dataset `{0, 1} ⊆ ℚ¹`: all three strategies return
the (empty) rectangle `[0, 1]` on concrete random streams. -/
theorem claim_C1_witness :
    (sequentialExpand (holeFinderOf [[0], [1]] 2 1 .sequential false) [0]
      (seedState (holeFinderOf [[0], [1]] 2 1 .sequential false)
        (fun _ => 1))).1.isEmpty [[0], [1]] = true ∧
    HyperRectangle.isEmpty { U := [1], L := [0] } [[0], [1]] = true := by
  have h := claim_C1_expansion_empty [[0], [1]] 2 1 .sequential false (fun _ => 1)
    (by decide) (by decide) (by decide)
  refine ⟨h.1 [0] (by decide), ?_⟩
  exact h.2.1 [0] (fun t => decide (t % 2 = 0)) 4 { U := [1], L := [0] } false
    (by decide) (by decide)

/-- Witness for C10 on the dataset `{0, 1} ⊆ ℚ¹`. -/
theorem claim_C10_witness :
    (sequentialExpand (holeFinderOf [[0], [1]] 2 1 .sequential false) [0]
      (seedState (holeFinderOf [[0], [1]] 2 1 .sequential false)
        (fun _ => 1))).1.L.getD 0 0 ≤
      (makeSeed (holeFinderOf [[0], [1]] 2 1 .sequential false)
        (fun _ => 1)).L.getD 0 0 ∧
    (makeSeed (holeFinderOf [[0], [1]] 2 1 .sequential false)
      (fun _ => 1)).U.getD 0 0 ≤
      (sequentialExpand (holeFinderOf [[0], [1]] 2 1 .sequential false) [0]
        (seedState (holeFinderOf [[0], [1]] 2 1 .sequential false)
          (fun _ => 1))).1.U.getD 0 0 :=
  (claim_C10_expansion_contains_seed [[0], [1]] 2 1 .sequential false (fun _ => 1)
    (by decide) (by decide) (by decide)).1 [0] (by decide) 0 (by decide)

/-! ### Face maximality (claim-facing formulation) -/

/-- The next unique coordinate value strictly above `v` (the face value after
one further notch of an upper push). -/
def nextUp (P : List ℚ) (v : ℚ) : ℚ :=
  (P.filter (fun w => decide (v < w))).headD v

/-- The largest unique coordinate value strictly below `v`. -/
def prevDown (P : List ℚ) (v : ℚ) : ℚ :=
  (P.filter (fun w => decide (w < v))).getLastD v

/-- The rectangle after a one-notch outward push of the upper face of `d`. -/
def pushedUp (data : List (List ℚ)) (r : HyperRectangle) (d : Nat) : HyperRectangle :=
  { r with U := r.U.set d (nextUp (projOf data d) (r.U.getD d 0)) }

/-- The rectangle after a one-notch outward push of the lower face of `d`. -/
def pushedDown (data : List (List ℚ)) (r : HyperRectangle) (d : Nat) : HyperRectangle :=
  { r with L := r.L.set d (prevDown (projOf data d) (r.L.getD d 0)) }

/-- Every face of `r` is either adjacent to a data point that would become
interior on a further one-notch push of that face, or coincides with the
data's extreme projection value along its axis. -/
@[reducible] def MaximalFaces (data : List (List ℚ)) (k : Nat) (r : HyperRectangle) : Prop :=
  ∀ d, d < k →
    ((∃ p ∈ data, p.getD d 0 = r.U.getD d 0 ∧
        (pushedUp data r d).contains p = true) ∨
      r.U.getD d 0 = (projOf data d).getD ((projOf data d).length - 1) 0) ∧
    ((∃ p ∈ data, p.getD d 0 = r.L.getD d 0 ∧
        (pushedDown data r d).contains p = true) ∨
      r.L.getD d 0 = (projOf data d).getD 0 0)

/-- In a strictly sorted list, the elements above entry `T` are the suffix
past `T`. -/
theorem filter_gt_sorted :
    ∀ (P : List ℚ), P.Sorted (· < ·) → ∀ T, T < P.length →
      P.filter (fun w => decide (P.getD T 0 < w)) = P.drop (T + 1) := by
  intro P
  induction P with
  | nil =>
    intro _ T hT
    exact absurd hT (by simp)
  | cons a rest ih =>
    intro hs T hT
    obtain ⟨hall, hrest⟩ := List.sorted_cons.mp hs
    cases T with
    | zero =>
      simp only [List.getD_cons_zero]
      rw [List.filter_cons, if_neg (by simp), List.drop_succ_cons, List.drop_zero]
      apply List.filter_eq_self.mpr
      intro w hw
      exact decide_eq_true (hall w hw)
    | succ T =>
      simp only [List.getD_cons_succ]
      have hTr : T < rest.length := by
        simpa using Nat.lt_of_succ_lt_succ hT
      have hmem : rest.getD T 0 ∈ rest := by
        rw [List.getD_eq_getElem _ _ hTr]
        exact List.getElem_mem hTr
      rw [List.filter_cons, if_neg (by
        simp only [decide_eq_true_eq]
        exact lt_asymm (hall _ hmem)), List.drop_succ_cons]
      exact ih hrest T hTr

/-- In a strictly sorted list, the elements below entry `T` are the prefix
before `T`. -/
theorem filter_lt_sorted :
    ∀ (P : List ℚ), P.Sorted (· < ·) → ∀ T, T < P.length →
      P.filter (fun w => decide (w < P.getD T 0)) = P.take T := by
  intro P
  induction P with
  | nil =>
    intro _ T hT
    exact absurd hT (by simp)
  | cons a rest ih =>
    intro hs T hT
    obtain ⟨hall, hrest⟩ := List.sorted_cons.mp hs
    cases T with
    | zero =>
      simp only [List.getD_cons_zero]
      rw [List.filter_cons, if_neg (by simp), List.take_zero]
      apply List.filter_eq_nil.mpr
      intro w hw
      simp only [decide_eq_true_eq]
      exact lt_asymm (hall w hw)
    | succ T =>
      simp only [List.getD_cons_succ]
      have hTr : T < rest.length := by
        simpa using Nat.lt_of_succ_lt_succ hT
      have hmem : rest.getD T 0 ∈ rest := by
        rw [List.getD_eq_getElem _ _ hTr]
        exact List.getElem_mem hTr
      rw [List.filter_cons, if_pos (by
        simp only [decide_eq_true_eq]
        exact hall _ hmem), List.take_succ_cons]
      rw [ih hrest T hTr]

/-- The last entry of a nonempty prefix. -/
theorem getLastD_take :
    ∀ (P : List ℚ) (T : Nat) (v : ℚ), 0 < T → T ≤ P.length →
      (P.take T).getLastD v = P.getD (T - 1) 0 := by
  intro P
  induction P with
  | nil =>
    intro T v hT hlen
    simp at hlen
    omega
  | cons a rest ih =>
    intro T v hT hlen
    cases T with
    | zero => omega
    | succ T =>
      rw [List.take_succ_cons, List.getLastD_cons]
      cases T with
      | zero =>
        simp
      | succ T =>
        have h1 : 0 < T + 1 := by omega
        have h2 : T + 1 ≤ rest.length := by
          simpa using Nat.le_of_succ_le_succ hlen
        rw [ih (T + 1) a h1 h2]
        simp only [Nat.add_sub_cancel]
        rw [List.getD_cons_succ]

/-- The head of a suffix at an in-range position. -/
theorem headD_drop {P : List ℚ} {T : Nat} (hT : T < P.length) (v : ℚ) :
    (P.drop T).headD v = P.getD T 0 := by
  rw [List.drop_eq_getElem_cons hT, List.headD_cons, List.getD_eq_getElem _ _ hT]

/-- A fully locked invariant state is face-maximal in the claim's sense. -/
theorem locked_maximal {hf : HoleFinder} (hwf : HFWf hf) {st : ExpState}
    (hInv : Inv hf st)
    (hl : ∀ d, d < hf.k → UpLockedAt hf st d ∧ DownLockedAt hf st d) :
    MaximalFaces hf.data hf.k st.ehr := by
  intro d hd
  obtain ⟨h1, h2, h3, h4, h5⟩ := hInv.2.2 d hd
  have hUlen := hInv.1
  have hLlen := hInv.2.1
  have hproj : hf.proj d = projOf hf.data d := hwf.2 d hd
  have hsorted : (hf.proj d).Sorted (· < ·) := proj_sorted hwf hd
  constructor
  · -- upper face
    by_cases hTtop : st.undxs d = (hf.proj d).length - 1
    · right
      rw [h4, hTtop, hproj]
    · rcases (hl d hd).1 with ⟨p, hp, heq, hway⟩ | hbd
      · left
        refine ⟨p, hp, by rw [heq, h4], ?_⟩
        have hplen : p.length = hf.k := hwf.1 p hp
        have hlt1 : st.undxs d + 1 < (hf.proj d).length := by omega
        have hnext : nextUp (projOf hf.data d) (st.ehr.U.getD d 0) =
            (hf.proj d).getD (st.undxs d + 1) 0 := by
          rw [nextUp, h4, hproj]
          rw [filter_gt_sorted (projOf hf.data d) (by rw [← hproj]; exact hsorted)
            (st.undxs d) (by rw [← hproj]; exact h1)]
          rw [← hproj]
          exact headD_drop hlt1 _
        have hU'len : (pushedUp hf.data st.ehr d).U.length = hf.k := by
          simp [pushedUp, hUlen]
        have hL'len : (pushedUp hf.data st.ehr d).L.length = hf.k := hLlen
        rw [contains_iff _ p hf.k hU'len hL'len hplen]
        intro i hi
        by_cases hid : i = d
        · subst hid
          have hgetU : (pushedUp hf.data st.ehr i).U.getD i 0 =
              (hf.proj i).getD (st.undxs i + 1) 0 := by
            show (st.ehr.U.set i (nextUp (projOf hf.data i) (st.ehr.U.getD i 0))).getD i 0 =
              (hf.proj i).getD (st.undxs i + 1) 0
            rw [getD_set_self (by omega), hnext]
          have hgetL : (pushedUp hf.data st.ehr i).L.getD i 0 = st.ehr.L.getD i 0 := rfl
          rw [hgetU, hgetL]
          have hlndx : st.lndxs i < st.undxs i := by
            rcases h3 with h3 | h3
            · exact h3
            · omega
          constructor
          · rw [heq, h5]
            exact (sorted_getD_lt_iff hsorted (by omega) h1).mpr hlndx
          · rw [heq]
            exact (sorted_getD_lt_iff hsorted h1 hlt1).mpr (by omega)
        · have hin := (inWay_iff st.ehr p d hf.k hUlen hLlen hplen).mp hway i hi hid
          have hgetU : (pushedUp hf.data st.ehr d).U.getD i 0 = st.ehr.U.getD i 0 := by
            show (st.ehr.U.set d (nextUp (projOf hf.data d) (st.ehr.U.getD d 0))).getD i 0 =
              st.ehr.U.getD i 0
            rw [getD_set_ne (fun hc => hid hc.symm)]
          rw [hgetU]
          exact hin
      · exact absurd hbd hTtop
  · -- lower face
    by_cases hTbot : st.lndxs d = 0
    · right
      rw [h5, hTbot, hproj]
    · rcases (hl d hd).2 with ⟨p, hp, heq, hway⟩ | hbd
      · left
        refine ⟨p, hp, by rw [heq, h5], ?_⟩
        have hplen : p.length = hf.k := hwf.1 p hp
        have hpos : 0 < st.lndxs d := by omega
        have hprev : prevDown (projOf hf.data d) (st.ehr.L.getD d 0) =
            (hf.proj d).getD (st.lndxs d - 1) 0 := by
          rw [prevDown, h5, hproj]
          rw [filter_lt_sorted (projOf hf.data d) (by rw [← hproj]; exact hsorted)
            (st.lndxs d) (by rw [← hproj]; omega)]
          rw [← hproj]
          exact getLastD_take _ (st.lndxs d) _ hpos (by omega)
        have hU'len : (pushedDown hf.data st.ehr d).U.length = hf.k := hUlen
        have hL'len : (pushedDown hf.data st.ehr d).L.length = hf.k := by
          simp [pushedDown, hLlen]
        rw [contains_iff _ p hf.k hU'len hL'len hplen]
        intro i hi
        by_cases hid : i = d
        · subst hid
          have hgetL : (pushedDown hf.data st.ehr i).L.getD i 0 =
              (hf.proj i).getD (st.lndxs i - 1) 0 := by
            show (st.ehr.L.set i (prevDown (projOf hf.data i) (st.ehr.L.getD i 0))).getD i 0 =
              (hf.proj i).getD (st.lndxs i - 1) 0
            rw [getD_set_self (by omega), hprev]
          have hgetU : (pushedDown hf.data st.ehr i).U.getD i 0 = st.ehr.U.getD i 0 := rfl
          rw [hgetU, hgetL]
          have hlndx : st.lndxs i < st.undxs i := by
            rcases h3 with h3 | h3
            · exact h3
            · omega
          constructor
          · rw [heq]
            exact (sorted_getD_lt_iff hsorted (by omega) (by omega)).mpr (by omega)
          · rw [heq, h4]
            exact (sorted_getD_lt_iff hsorted (by omega) h1).mpr hlndx
        · have hin := (inWay_iff st.ehr p d hf.k hUlen hLlen hplen).mp hway i hi hid
          have hgetL : (pushedDown hf.data st.ehr d).L.getD i 0 = st.ehr.L.getD i 0 := by
            show (st.ehr.L.set d (prevDown (projOf hf.data d) (st.ehr.L.getD d 0))).getD i 0 =
              st.ehr.L.getD i 0
            rw [getD_set_ne (fun hc => hid hc.symm)]
          rw [hgetL]
          exact hin
      · exact absurd hbd hTbot

/-- C2 counterexample: under interior-only operation the even strategy can
abandon early (the moment `interior` turns false) and return a rectangle one
of whose faces is neither adjacent to a blocking point nor at the data's
extreme projection value.  On the 2-D grid `{0,1,2}²` minus `(1,1)`, with the
seed `[1,2] × [0,1]` and coins always "up", the first cycle locks dimension 0
at the data boundary (so `interior` turns false) and pushes dimension 1 up
once; the loop then exits with the lower face of dimension 0 at `1`: not at
the minimum `0`, and no point with first coordinate `1` would become interior
on a further push. -/
theorem claim_C2_counterexample :
    evenExpand
        (holeFinderOf [[0, 0], [1, 0], [2, 0], [0, 2], [1, 2], [2, 2], [0, 1], [2, 1]]
          8 2 .even true)
        [0, 1] (fun _ => true) 2
        (seedState
          (holeFinderOf [[0, 0], [1, 0], [2, 0], [0, 2], [1, 2], [2, 2], [0, 1], [2, 1]]
            8 2 .even true)
          (fun i => if i = 0 then 2 else 1)) =
      some ({ U := [2, 2], L := [1, 0] }, false) ∧
    ¬ MaximalFaces [[0, 0], [1, 0], [2, 0], [0, 2], [1, 2], [2, 2], [0, 1], [2, 1]] 2
        { U := [2, 2], L := [1, 0] } := by
  constructor
  · decide
  · decide

/-- C2 (amended): for every rectangle returned by the three expansion
strategies, and for every axis and direction, the face is adjacent to a data
point that would become interior on a further one-notch push or coincides
with the data's extreme projection value — provided interior-only operation
was not requested, or the returned `interior` flag is true.  (Under
interior-only, the even and random strategies may abandon early with unlocked
faces; the sequential strategy never abandons.) -/
theorem claim_C2_maximality_amended (data : List (List ℚ)) (n k : Nat)
    (strategy : Strategy) (interiorOnly : Bool) (rs : Nat → ℚ)
    (hn : data ≠ []) (hk : 0 < k) (hwfd : ∀ p ∈ data, p.length = k) :
    (∀ order, order.Perm (List.range k) →
      MaximalFaces data k
        (sequentialExpand (holeFinderOf data n k strategy interiorOnly) order
          (seedState (holeFinderOf data n k strategy interiorOnly) rs)).1) ∧
    (∀ order coins fuel r b, order.Perm (List.range k) →
      evenExpand (holeFinderOf data n k strategy interiorOnly) order coins fuel
        (seedState (holeFinderOf data n k strategy interiorOnly) rs) = some (r, b) →
      (interiorOnly = false ∨ b = true) →
      MaximalFaces data k r) ∧
    (∀ rsN ss fuel r b,
      randomExpand (holeFinderOf data n k strategy interiorOnly) rsN ss fuel
        (seedState (holeFinderOf data n k strategy interiorOnly) rs) = some (r, b) →
      (interiorOnly = false ∨ b = true) →
      MaximalFaces data k r) := by
  set hf := holeFinderOf data n k strategy interiorOnly with hhf
  have hwf : HFWf hf := holeFinderOf_wf data n k strategy interiorOnly hwfd
  have hn' : hf.data ≠ [] := hn
  have hInv : Inv hf (seedState hf rs) := seed_Inv hwf hn' rs
  refine ⟨?_, ?_, ?_⟩
  · intro order hperm
    have horder : ∀ d ∈ order, d < hf.k := by
      intro d hd
      exact List.mem_range.mp (hperm.mem_iff.mp hd)
    obtain ⟨f1, f2, f3⟩ := seqFold_spec hwf order (seedState hf rs) horder hInv
    exact locked_maximal hwf f2
      (fun d hd => f3 d (hperm.mem_iff.mpr (List.mem_range.mpr hd)))
  · intro order coins fuel r b hperm hsome hpro
    have horder : ∀ d ∈ order, d < hf.k := by
      intro d hd
      exact List.mem_range.mp (hperm.mem_iff.mp hd)
    obtain ⟨stf, r1, r2, r3, r4, r5⟩ :=
      evenLoop_spec hwf order coins horder fuel 0 (fun _ => false) (fun _ => false)
        (seedState hf rs) hInv (maskInv_init hf _) r b hsome
    rcases r5 with hlocks | ⟨hint, hio⟩
    · rw [r3]
      exact locked_maximal hwf r2 hlocks
    · exfalso
      rcases hpro with hpro | hpro
      · have : interiorOnly = true := hio
        rw [hpro] at this
        exact Bool.noConfusion this
      · rw [hpro] at r4
        rw [hint] at r4
        exact Bool.noConfusion r4
  · intro rsN ss fuel r b hsome hpro
    obtain ⟨stf, r1, r2, r3, r4, r5⟩ :=
      randLoop_spec hwf rsN ss fuel 0 _ (seedState hf rs) hInv
        (dirInv_init hf _) (dirBound_init hf) r b hsome
    rcases r5 with hlocks | ⟨hint, hio⟩
    · rw [r3]
      exact locked_maximal hwf r2 hlocks
    · exfalso
      rcases hpro with hpro | hpro
      · have : interiorOnly = true := hio
        rw [hpro] at this
        exact Bool.noConfusion this
      · rw [hpro] at r4
        rw [hint] at r4
        exact Bool.noConfusion r4

/-- Witness for amended C2: the sequential strategy on `{0, 1} ⊆ ℚ¹` returns
a face-maximal rectangle. -/
theorem claim_C2_witness :
    MaximalFaces [[0], [1]] 1
      (sequentialExpand (holeFinderOf [[0], [1]] 2 1 .sequential false) [0]
        (seedState (holeFinderOf [[0], [1]] 2 1 .sequential false) (fun _ => 1))).1 :=
  (claim_C2_maximality_amended [[0], [1]] 2 1 .sequential false (fun _ => 1)
    (by decide) (by decide) (by decide)).1 [0] (by decide)

/-! ### The search driver (`findLargestMEHRs`) -/

/-- The Hall of Fame: a Python list in "top mode" (`threshold is None`), a
Python dict (modelled as an insertion-ordered association list with distinct
keys) in "threshold mode". -/
inductive HallOfFame where
  | top (l : List HyperRectangle)
  | thresh (m : List (HyperRectangle × ℚ))
  deriving DecidableEq, Repr

/-- Driver state: the consecutive-failure counter `c`, the running best
volume `maxFound`, and the hall of fame. -/
structure SearchState where
  c : Nat
  maxFound : ℚ
  hof : HallOfFame
  deriving DecidableEq, Repr

/-- Python truthiness of the optional `threshold` argument: `None` and `0.0`
are falsy, any other float is truthy. -/
def pyTruthy : Option ℚ → Bool
  | none => false
  | some q => decide (q ≠ 0)

/-- `rect in hallOfFame` on the dict (hash-based key membership). -/
def hofMem (m : List (HyperRectangle × ℚ)) (r : HyperRectangle) : Bool :=
  m.any (fun e => decide (e.1 = r))

/-- Lines 59–80 of `HoleFinder.py`: how one `(rect, interior)` result updates
the driver state.  The first branch is Python's
`(interior or not self.interiorOnly) and threshold and volume > threshold`;
the second is the `elif` with `not threshold`.  In the second branch
`hallOfFame.append(rect)` is called, which raises `AttributeError` when the
hall of fame is a dict — reachable, because `threshold = 0.0` is falsy and so
selects this branch while the hall of fame was created as a dict. -/
def handleResult (interiorOnly : Bool) (threshold : Option ℚ)
    (st : SearchState) (res : HyperRectangle × Bool) : Except PyError SearchState :=
  let rect := res.1
  let interior := res.2
  let volume := rect.volume
  if (interior || !interiorOnly) && pyTruthy threshold &&
      decide (volume > threshold.getD 0) then
    match st.hof with
    | .thresh m =>
      if !hofMem m rect then
        .ok { st with c := 0, hof := .thresh (m ++ [(rect, volume)]) }
      else
        .ok { st with c := st.c + 1 }
    | .top _ =>
      -- `hallOfFame[rect] = volume` on a list raises `TypeError`
      -- (unreachable from `findLargestMEHRs`: the hall of fame is a list
      -- exactly when the threshold is `None`, which is falsy)
      .error .typeError
  else if (interior || !interiorOnly) && !pyTruthy threshold &&
      decide (volume > st.maxFound) then
    match st.hof with
    | .top l =>
      .ok { st with c := 0, maxFound := volume, hof := .top (l ++ [rect]) }
    | .thresh _ =>
      -- `hallOfFame.append(rect)` on a dict raises `AttributeError`
      .error .attributeError
  else
    .ok { st with c := st.c + 1 }

/-- The `for rect, interior in mehrs` loop over one batch. -/
def processResults (interiorOnly : Bool) (threshold : Option ℚ) :
    List (HyperRectangle × Bool) → SearchState → Except PyError SearchState
  | [], st => .ok st
  | res :: rest, st =>
    match handleResult interiorOnly threshold st res with
    | .error e => .error e
    | .ok st' => processResults interiorOnly threshold rest st'

/-- The `while c < maxitr` loop of `findLargestMEHRs`.  `W` is `cpu_count()`;
`stream j` abstracts the result of the `j`-th `_findRandomMEHR()` task in
driver order (the workers' randomized output).  The loop need not terminate,
so it carries fuel; `none` models a run that has not yet returned. -/
def searchLoop (interiorOnly : Bool) (threshold : Option ℚ) (W : Nat)
    (stream : Nat → HyperRectangle × Bool) (maxitr : Int) :
    Nat → Nat → SearchState → Option (Except PyError HallOfFame)
  | 0, _, _ => none
  | fuel + 1, pos, st =>
    if (st.c : Int) < maxitr then
      let batchSize := (min (maxitr - (st.c : Int)) ((W : Int) * 10)).toNat
      match processResults interiorOnly threshold
          ((List.range batchSize).map (fun j => stream (pos + j))) st with
      | .error e => some (.error e)
      | .ok st' =>
        searchLoop interiorOnly threshold W stream maxitr fuel (pos + batchSize) st'
    else
      some (.ok st.hof)

/-- `findLargestMEHRs(maxitr, threshold, verbose)`: the hall of fame starts as
`[] if threshold is None else {}`, and `c`, `maxFound` start at zero. -/
def findLargestMEHRs (hf : HoleFinder) (maxitr : Int) (threshold : Option ℚ)
    (W : Nat) (stream : Nat → HyperRectangle × Bool) (fuel : Nat) :
    Option (Except PyError HallOfFame) :=
  searchLoop hf.interiorOnly threshold W stream maxitr fuel 0
    { c := 0, maxFound := 0
      hof := if threshold = none then .top [] else .thresh [] }

/-- Volume of the 1-D rectangle `[0, 1]`. -/
theorem volume_unit : HyperRectangle.volume { U := [1], L := [0] } = 1 := by
  show (List.zipWith (fun u l => u - l) [(1:ℚ)] [0]).prod = 1
  simp

/-- C4: the code crashes on the failing input `threshold = 0.0`.  Python's
`threshold and volume > threshold` is falsy for `0.0`, so the driver falls
into the top-mode `elif` (`not threshold` is true) and calls
`hallOfFame.append(rect)` — but the hall of fame was created as a dict
(`threshold is not None`), raising `AttributeError` on the first admissible
rectangle of positive volume.  The stream used here is exactly what every
worker returns on the dataset `{0, 1} ⊆ ℚ¹`. -/
theorem claim_C4_threshold_zero_crash :
    findLargestMEHRs (holeFinderOf [[0], [1]] 2 1 .sequential false) 5 (some 0) 1
      (fun _ => ({ U := [1], L := [0] }, false)) 1 = some (.error .attributeError) := by
  have h1 : handleResult false (some 0) { c := 0, maxFound := 0, hof := .thresh [] }
      ({ U := [1], L := [0] }, false) = .error .attributeError := by
    simp only [handleResult, volume_unit, pyTruthy]
    norm_num
  simp only [findLargestMEHRs, searchLoop, holeFinderOf]
  norm_num
  simp only [processResults]
  rw [if_neg (Option.some_ne_none (0:ℚ))]
  rw [h1]

/-- Top-mode invariant of the driver state: the hall of fame is a list, every
recorded volume is at most `maxFound`, and volumes are strictly increasing. -/
def TopInv (st : SearchState) : Prop :=
  ∃ l, st.hof = .top l ∧ (∀ r ∈ l, r.volume ≤ st.maxFound) ∧
    (l.map HyperRectangle.volume).Pairwise (· < ·)

/-- In top mode (`threshold is None`) one result never errors and preserves
the top-mode invariant. -/
theorem handleResult_top (io : Bool) (st : SearchState)
    (res : HyperRectangle × Bool) (hT : TopInv st) :
    ∃ st', handleResult io none st res = .ok st' ∧ TopInv st' := by
  obtain ⟨l, hhof, hle, hpw⟩ := hT
  unfold handleResult
  have hpt : pyTruthy none = false := rfl
  rw [hpt]
  simp only [Bool.and_false, Bool.false_and, Bool.not_false, Bool.and_true]
  rw [if_neg Bool.false_ne_true]
  by_cases hc : ((res.2 || !io) && decide (res.1.volume > st.maxFound)) = true
  · rw [if_pos hc, hhof]
    rw [Bool.and_eq_true] at hc
    have hgt : st.maxFound < res.1.volume := of_decide_eq_true hc.2
    refine ⟨_, rfl, l ++ [res.1], rfl, ?_, ?_⟩
    · intro r hr
      rcases List.mem_append.mp hr with hr | hr
      · exact le_of_lt (lt_of_le_of_lt (hle r hr) hgt)
      · rw [List.mem_singleton.mp hr]
    · rw [List.map_append]
      rw [List.pairwise_append]
      refine ⟨hpw, List.pairwise_singleton _ _, ?_⟩
      intro a ha b hb
      obtain ⟨r, hr, rfl⟩ := List.mem_map.mp ha
      rw [List.map_singleton] at hb
      rw [List.mem_singleton.mp hb]
      exact lt_of_le_of_lt (hle r hr) hgt
  · rw [if_neg hc]
    exact ⟨_, rfl, l, hhof, hle, hpw⟩

/-- A whole batch in top mode never errors and preserves the invariant. -/
theorem processResults_top (io : Bool) :
    ∀ (batch : List (HyperRectangle × Bool)) (st : SearchState), TopInv st →
      ∃ st', processResults io none batch st = .ok st' ∧ TopInv st' := by
  intro batch
  induction batch with
  | nil =>
    intro st hT
    exact ⟨st, rfl, hT⟩
  | cons res rest ih =>
    intro st hT
    obtain ⟨st₁, h1, hT₁⟩ := handleResult_top io st res hT
    obtain ⟨st', h2, hT'⟩ := ih st₁ hT₁
    refine ⟨st', ?_, hT'⟩
    show (match handleResult io none st res with
      | Except.error e => Except.error e
      | Except.ok st' => processResults io none rest st') = Except.ok st'
    rw [h1]
    exact h2

/-- The top-mode loop only ever returns a strictly-increasing hall of fame. -/
theorem searchLoop_top (io : Bool) (W : Nat) (stream : Nat → HyperRectangle × Bool)
    (maxitr : Int) :
    ∀ (fuel pos : Nat) (st : SearchState), TopInv st →
      ∀ out, searchLoop io none W stream maxitr fuel pos st = some out →
      ∃ l, out = .ok (.top l) ∧ (l.map HyperRectangle.volume).Pairwise (· < ·) := by
  intro fuel
  induction fuel with
  | zero =>
    intro pos st hT out hsome
    exact absurd hsome (by simp [searchLoop])
  | succ fuel ih =>
    intro pos st hT out hsome
    by_cases hcond : (st.c : Int) < maxitr
    · obtain ⟨st', hps, hT'⟩ := processResults_top io
        ((List.range ((min (maxitr - (st.c : Int)) ((W : Int) * 10)).toNat)).map
          (fun j => stream (pos + j))) st hT
      have hunf : searchLoop io none W stream maxitr (fuel + 1) pos st =
          searchLoop io none W stream maxitr fuel
            (pos + (min (maxitr - (st.c : Int)) ((W : Int) * 10)).toNat) st' := by
        conv_lhs => rw [searchLoop]
        rw [if_pos hcond]
        show (match processResults io none
            ((List.range ((min (maxitr - (st.c : Int)) ((W : Int) * 10)).toNat)).map
              (fun j => stream (pos + j))) st with
          | Except.error e => some (Except.error e)
          | Except.ok st' => searchLoop io none W stream maxitr fuel
              (pos + (min (maxitr - (st.c : Int)) ((W : Int) * 10)).toNat) st') = _
        rw [hps]
      rw [hunf] at hsome
      exact ih _ st' hT' out hsome
    · have hunf : searchLoop io none W stream maxitr (fuel + 1) pos st =
          some (.ok st.hof) := by
        conv_lhs => rw [searchLoop]
        rw [if_neg hcond]
      rw [hunf] at hsome
      obtain ⟨l, hhof, hle, hpw⟩ := hT
      refine ⟨l, ?_, hpw⟩
      have := Option.some.injEq _ _ ▸ hsome
      rw [← this, hhof]

/-- C5: in top mode (no threshold supplied), every hall of fame returned by
the search call has its entries in strictly increasing volume order: each
appended rectangle's volume strictly exceeds every earlier entry's. -/
theorem claim_C5_top_mode_monotone (hf : HoleFinder) (maxitr : Int) (W : Nat)
    (stream : Nat → HyperRectangle × Bool) (fuel : Nat)
    (out : Except PyError HallOfFame)
    (h : findLargestMEHRs hf maxitr none W stream fuel = some out) :
    ∃ l, out = .ok (.top l) ∧ (l.map HyperRectangle.volume).Pairwise (· < ·) := by
  have hT : TopInv
      { c := 0, maxFound := 0,
        hof := (if (none : Option ℚ) = none then .top [] else .thresh []) } :=
    ⟨[], by rw [if_pos rfl], fun r hr => absurd hr (List.not_mem_nil r),
      List.Pairwise.nil⟩
  exact searchLoop_top hf.interiorOnly W stream maxitr fuel 0 _ hT out h

/-- Witness for C5: a concrete search call in top mode returns a hall of fame
whose entries are in strictly increasing volume order. -/
theorem claim_C5_witness :
    ∃ l, (Except.ok (HallOfFame.top []) : Except PyError HallOfFame) =
        .ok (.top l) ∧ (l.map HyperRectangle.volume).Pairwise (· < ·) :=
  claim_C5_top_mode_monotone (holeFinderOf [[0], [1]] 2 1 .even false) 0 1
    (fun _ => ({ U := [1], L := [0] }, true)) 1 (.ok (.top []))
    (by simp only [findLargestMEHRs, searchLoop]; norm_num)

/-- C6 counterexample: calling the search with `maxitr = 0` does not raise —
the `while c < maxitr` loop never runs and the empty hall of fame is returned
normally. -/
theorem claim_C6_counterexample :
    findLargestMEHRs (holeFinderOf [[0], [1]] 2 1 .sequential false) 0 none 1
      (fun _ => ({ U := [1], L := [0] }, false)) 1 = some (.ok (.top [])) := by
  simp only [findLargestMEHRs, searchLoop]
  norm_num

/-- C6 (amended): calling the search operation with `maxitr ≤ 0` is not
fatal: no validation error is raised; the loop body never runs and the search
returns the (empty) hall of fame normally. -/
theorem claim_C6_nonpositive_maxitr_amended (hf : HoleFinder) (maxitr : Int)
    (threshold : Option ℚ) (W : Nat) (stream : Nat → HyperRectangle × Bool)
    (fuel : Nat) (hm : maxitr ≤ 0) (hfuel : 1 ≤ fuel) :
    findLargestMEHRs hf maxitr threshold W stream fuel =
      some (.ok (if threshold = none then HallOfFame.top [] else HallOfFame.thresh [])) := by
  match fuel, hfuel with
  | fuel + 1, _ =>
    show searchLoop hf.interiorOnly threshold W stream maxitr (fuel + 1) 0
      { c := 0, maxFound := 0
        hof := if threshold = none then .top [] else .thresh [] } = _
    conv_lhs => rw [searchLoop]
    rw [if_neg (by
      show ¬(((0 : Nat) : Int) < maxitr)
      omega)]

/-- Witness for amended C6 at `maxitr = 0` on a concrete engine. -/
theorem claim_C6_witness :
    findLargestMEHRs (holeFinderOf [[0], [1]] 2 1 .sequential false) 0 none 1
      (fun _ => ({ U := [0], L := [0] }, true)) 3 =
      some (.ok (if (none : Option ℚ) = none then HallOfFame.top []
        else HallOfFame.thresh [])) :=
  claim_C6_nonpositive_maxitr_amended (holeFinderOf [[0], [1]] 2 1 .sequential false)
    0 none 1 (fun _ => ({ U := [0], L := [0] }, true)) 3 (by omega) (by omega)

/-- C7 counterexample: constructing the engine on two points of dimension
zero succeeds — `numpy.min` over axis 0 of a `(2, 0)` matrix returns an empty
array without raising, and nothing else in `__init__` validates the shape. -/
theorem claim_C7_counterexample :
    mkHoleFinder [[], []] 2 0 .sequential false =
      .ok (holeFinderOf [[], []] 2 0 .sequential false) := rfl

/-- C7 (amended): constructing the engine with zero points and at least one
dimension fails at construction (the `ValueError` raised by the empty
`numpy.min` reduction); with at least one point the constructor always
succeeds, even with zero dimensions. -/
theorem claim_C7_construction_amended (data : List (List ℚ)) (n k : Nat)
    (strategy : Strategy) (interiorOnly : Bool) :
    (n = 0 → 0 < k →
      mkHoleFinder data n k strategy interiorOnly = .error .valueError) ∧
    (0 < n →
      mkHoleFinder data n k strategy interiorOnly =
        .ok (holeFinderOf data n k strategy interiorOnly)) := by
  constructor
  · intro hn hk
    rw [mkHoleFinder, if_pos ⟨hn, hk⟩]
  · intro hn
    rw [mkHoleFinder, if_neg (by omega)]

/-- Witness for amended C7: a `(0, 1)` dataset raises and a `(2, 1)` dataset
constructs. -/
theorem claim_C7_witness :
    mkHoleFinder [] 0 1 .sequential false = .error .valueError ∧
    mkHoleFinder [[0], [1]] 2 1 .even true =
      .ok (holeFinderOf [[0], [1]] 2 1 .even true) :=
  ⟨(claim_C7_construction_amended [] 0 1 .sequential false).1 rfl (by omega),
    (claim_C7_construction_amended [[0], [1]] 2 1 .even true).2 (by omega)⟩

end BigHoles
